import Mathlib

/-!
Shallow embedding of the agent-exporter core pipeline
(normalization → pricing resolution → aggregation) and proofs of the
specification's testable properties against it.

JavaScript numbers are modelled by `JsNum`: either a finite rational or one
of the three non-finite values `NaN`, `Infinity`, `-Infinity`.  Rounding of
IEEE doubles is not modelled (sums and products are exact rationals), which
is the standard abstraction for this kind of code; the claims under study
are about algebraic structure (sum invariants, guards against `NaN` and
`Infinity`), not about rounding error.
-/

/-- A JavaScript number: a finite rational, `NaN`, `Infinity` or `-Infinity`. -/
inductive JsNum : Type where
  | fin (q : ℚ)
  | nan
  | inf
  | ninf
deriving DecidableEq, Repr

/-- JavaScript addition on `JsNum` (overflow to `Infinity` is not modelled). -/
def jsAdd : JsNum → JsNum → JsNum
  | .nan, _ => .nan
  | _, .nan => .nan
  | .inf, .ninf => .nan
  | .ninf, .inf => .nan
  | .inf, _ => .inf
  | _, .inf => .inf
  | .ninf, _ => .ninf
  | _, .ninf => .ninf
  | .fin a, .fin b => .fin (a + b)

/-- JavaScript division on `JsNum` (`-0` is not modelled). -/
def jsDiv : JsNum → JsNum → JsNum
  | .nan, _ => .nan
  | _, .nan => .nan
  | .inf, .inf => .nan
  | .inf, .ninf => .nan
  | .ninf, .inf => .nan
  | .ninf, .ninf => .nan
  | .inf, .fin b => if b < 0 then .ninf else .inf
  | .ninf, .fin b => if b < 0 then .inf else .ninf
  | .fin _, .inf => .fin 0
  | .fin _, .ninf => .fin 0
  | .fin a, .fin b =>
      if b = 0 then (if a = 0 then .nan else if 0 < a then .inf else .ninf)
      else .fin (a / b)

/-- JavaScript `Number.isFinite`. -/
def JsNum.isFinite : JsNum → Bool
  | .fin _ => true
  | _ => false

/-- The rational value of a finite `JsNum`; `0` for the non-finite values. -/
def JsNum.toRat : JsNum → ℚ
  | .fin q => q
  | _ => 0

theorem jsAdd_assoc (a b c : JsNum) : jsAdd (jsAdd a b) c = jsAdd a (jsAdd b c) := by
  rcases a <;> rcases b <;> rcases c <;> simp [jsAdd, add_assoc]

theorem jsAdd_comm (a b : JsNum) : jsAdd a b = jsAdd b a := by
  rcases a <;> rcases b <;> simp [jsAdd, add_comm]

theorem jsAdd_zero (a : JsNum) : jsAdd a (.fin 0) = a := by
  rcases a <;> simp [jsAdd]

theorem zero_jsAdd (a : JsNum) : jsAdd (.fin 0) a = a := by
  rcases a <;> simp [jsAdd]

instance : Zero JsNum := ⟨.fin 0⟩

instance : Add JsNum := ⟨jsAdd⟩

instance : AddCommMonoid JsNum where
  add_assoc := jsAdd_assoc
  add_comm := jsAdd_comm
  zero_add := zero_jsAdd
  add_zero := jsAdd_zero
  nsmul := nsmulRec
  nsmul_zero := fun _ => rfl
  nsmul_succ := fun _ _ => rfl

theorem JsNum.add_def (a b : JsNum) : a + b = jsAdd a b := rfl

theorem JsNum.zero_def : (0 : JsNum) = .fin 0 := rfl

theorem JsNum.fin_add_fin (a b : ℚ) : (JsNum.fin a) + (JsNum.fin b) = .fin (a + b) := rfl

theorem JsNum.isFinite_add {a b : JsNum} (ha : a.isFinite = true)
    (hb : b.isFinite = true) : (a + b).isFinite = true := by
  rcases a <;> rcases b <;> simp_all [JsNum.isFinite, JsNum.add_def, jsAdd]

/-!
Calendar model.  The code stores dates as `YYYY-MM-DD` strings and iterates
over them with dayjs calendar arithmetic (`add(1, 'day')`); lexicographic
comparison of those strings coincides with the ordering below, and dayjs's
day-granularity `isBefore`/`isSame` coincide with it as well.  We model the
parsed form directly: a `CalDate` is a year/month/day triple.
-/

/-- A calendar date as the parsed form of a `YYYY-MM-DD` string. -/
structure CalDate : Type where
  y : ℕ
  m : ℕ
  d : ℕ
deriving DecidableEq, Repr

/-- Gregorian leap-year rule. -/
def isLeap (y : ℕ) : Bool := y % 4 == 0 && (y % 100 != 0 || y % 400 == 0)

/-- Number of days in a year. -/
def daysInYear (y : ℕ) : ℕ := if isLeap y then 366 else 365

/-- Number of days in month `m` (1–12) of year `y`. -/
def daysInMonth (y m : ℕ) : ℕ :=
  match m with
  | 2 => if isLeap y then 29 else 28
  | 4 => 30
  | 6 => 30
  | 9 => 30
  | 11 => 30
  | _ => 31

/-- Days of year `y` that fall strictly before month `m`. -/
def daysBeforeMonth (y : ℕ) : ℕ → ℕ
  | 0 => 0
  | 1 => 0
  | m + 1 => daysBeforeMonth y m + daysInMonth y m

/-- Days falling in years strictly before year `y`. -/
def daysBeforeYear : ℕ → ℕ
  | 0 => 0
  | y + 1 => daysBeforeYear y + daysInYear y

/-- Linear day number of a date (days since the calendar's origin). -/
def rataDie (t : CalDate) : ℕ :=
  daysBeforeYear t.y + daysBeforeMonth t.y t.m + (t.d - 1)

/-- The calendar successor of a date: dayjs `add(1, 'day')`. -/
def nextDay (t : CalDate) : CalDate :=
  if t.d < daysInMonth t.y t.m then ⟨t.y, t.m, t.d + 1⟩
  else if t.m < 12 then ⟨t.y, t.m + 1, 1⟩
  else ⟨t.y + 1, 1, 1⟩

/-- A well-formed calendar date. -/
def ValidDate (t : CalDate) : Prop :=
  1 ≤ t.m ∧ t.m ≤ 12 ∧ 1 ≤ t.d ∧ t.d ≤ daysInMonth t.y t.m

instance (t : CalDate) : Decidable (ValidDate t) := by
  unfold ValidDate; infer_instance

/-- Lexicographic strict order on dates (the order of their `YYYY-MM-DD`
strings). -/
def dateLt (a b : CalDate) : Bool :=
  a.y < b.y || (a.y == b.y && (a.m < b.m || (a.m == b.m && a.d < b.d)))

/-- Lexicographic order on dates; dayjs
`current.isBefore(end) || current.isSame(end, 'day')` for day-parsed inputs. -/
def dateLe (a b : CalDate) : Bool := dateLt a b || a == b

/-- The chain of `n` consecutive calendar dates starting at `s`. -/
def dateRange (s : CalDate) : ℕ → List CalDate
  | 0 => []
  | n + 1 => s :: dateRange (nextDay s) n

theorem daysInMonth_pos (y m : ℕ) : 1 ≤ daysInMonth y m := by
  unfold daysInMonth
  split <;> (try split) <;> omega

theorem daysBeforeMonth_succ (y m : ℕ) (h : 1 ≤ m) :
    daysBeforeMonth y (m + 1) = daysBeforeMonth y m + daysInMonth y m := by
  rcases m with _ | m
  · omega
  · rfl

theorem daysBeforeMonth_year_total (y : ℕ) :
    daysBeforeMonth y 12 + daysInMonth y 12 = daysInYear y := by
  rcases h : isLeap y <;>
    simp [daysBeforeMonth, daysInMonth, daysInYear, h]

theorem daysBeforeMonth_mono (y : ℕ) {m m' : ℕ} (h : m ≤ m') :
    daysBeforeMonth y m ≤ daysBeforeMonth y m' := by
  induction m' with
  | zero => interval_cases m; exact Nat.le_refl _
  | succ k ih =>
    rcases Nat.lt_or_ge m (k + 1) with hlt | hge
    · refine le_trans (ih (by omega)) ?_
      rcases k with _ | k
      · exact Nat.le_refl _
      · rw [daysBeforeMonth_succ y (k + 1) (by omega)]; omega
    · have : m = k + 1 := by omega
      subst this; exact Nat.le_refl _

theorem daysBeforeYear_succ (y : ℕ) :
    daysBeforeYear (y + 1) = daysBeforeYear y + daysInYear y := rfl

theorem daysBeforeYear_mono {y y' : ℕ} (h : y ≤ y') :
    daysBeforeYear y ≤ daysBeforeYear y' := by
  induction y' with
  | zero => interval_cases y; exact Nat.le_refl _
  | succ k ih =>
    rcases Nat.lt_or_ge y (k + 1) with hlt | hge
    · exact le_trans (ih (by omega)) (by rw [daysBeforeYear_succ]; omega)
    · have : y = k + 1 := by omega
      subst this; exact Nat.le_refl _

/-- Within a valid date's year, the day offset is below the year length. -/
theorem rataDie_offset_lt (t : CalDate) (h : ValidDate t) :
    daysBeforeMonth t.y t.m + (t.d - 1) < daysInYear t.y := by
  obtain ⟨hm1, hm12, hd1, hdm⟩ := h
  have h1 : daysBeforeMonth t.y t.m + t.d ≤ daysBeforeMonth t.y t.m + daysInMonth t.y t.m := by
    omega
  have h2 : daysBeforeMonth t.y t.m + daysInMonth t.y t.m = daysBeforeMonth t.y (t.m + 1) :=
    (daysBeforeMonth_succ t.y t.m hm1).symm
  have h3 : daysBeforeMonth t.y (t.m + 1) ≤ daysBeforeMonth t.y 12 + daysInMonth t.y 12 := by
    rcases Nat.lt_or_ge t.m 12 with hlt | hge
    · exact le_trans (daysBeforeMonth_mono t.y (by omega : t.m + 1 ≤ 12)) (by omega)
    · have hm : t.m = 12 := by omega
      rw [hm, daysBeforeMonth_succ t.y 12 (by omega)]
  have h4 := daysBeforeMonth_year_total t.y
  omega

theorem validDate_nextDay {t : CalDate} (h : ValidDate t) : ValidDate (nextDay t) := by
  obtain ⟨hm1, hm12, hd1, hdm⟩ := h
  unfold ValidDate nextDay
  split
  · dsimp only
    omega
  · split
    · dsimp only
      exact ⟨by omega, by omega, by omega, daysInMonth_pos _ _⟩
    · dsimp only
      exact ⟨by omega, by omega, by omega, daysInMonth_pos _ _⟩

theorem rataDie_nextDay {t : CalDate} (h : ValidDate t) :
    rataDie (nextDay t) = rataDie t + 1 := by
  obtain ⟨hm1, hm12, hd1, hdm⟩ := h
  by_cases hd : t.d < daysInMonth t.y t.m
  · simp [nextDay, rataDie, hd]
    omega
  · by_cases hm : t.m < 12
    · simp [nextDay, rataDie, hd, hm]
      have hs := daysBeforeMonth_succ t.y t.m hm1
      omega
    · simp [nextDay, rataDie, hd, hm]
      have hm' : t.m = 12 := by omega
      have h1 := daysBeforeYear_succ t.y
      have h2 := daysBeforeMonth_year_total t.y
      have hb1 : daysBeforeMonth (t.y + 1) 1 = 0 := rfl
      rw [hm'] at hd hdm ⊢
      omega

theorem rataDie_lt_of_dateLt {a b : CalDate} (ha : ValidDate a) (_hb : ValidDate b)
    (hlt : dateLt a b = true) : rataDie a < rataDie b := by
  unfold dateLt at hlt
  simp only [Bool.or_eq_true, Bool.and_eq_true, decide_eq_true_eq, beq_iff_eq] at hlt
  unfold rataDie
  rcases hlt with hy | ⟨hy, hm | ⟨hm, hd⟩⟩
  · have h1 := rataDie_offset_lt a ha
    have h2 : daysBeforeYear (a.y + 1) ≤ daysBeforeYear b.y :=
      daysBeforeYear_mono (by omega)
    have h3 := daysBeforeYear_succ a.y
    omega
  · obtain ⟨ham1, _, had1, hadm⟩ := ha
    have h1 : daysBeforeMonth a.y (a.m + 1) ≤ daysBeforeMonth a.y b.m :=
      daysBeforeMonth_mono a.y (by omega)
    have h2 := daysBeforeMonth_succ a.y a.m ham1
    have hy1 : daysBeforeYear a.y = daysBeforeYear b.y := by rw [hy]
    have hy2 : daysBeforeMonth a.y b.m = daysBeforeMonth b.y b.m := by rw [hy]
    omega
  · obtain ⟨_, _, had1, _⟩ := ha
    have hy1 : daysBeforeYear a.y = daysBeforeYear b.y := by rw [hy]
    have hy2 : daysBeforeMonth a.y a.m = daysBeforeMonth b.y b.m := by rw [hy, hm]
    omega

theorem dateLt_trichotomy (a b : CalDate) :
    dateLt a b = true ∨ a = b ∨ dateLt b a = true := by
  unfold dateLt
  obtain ⟨ay, am, ad⟩ := a
  obtain ⟨by_, bm, bd⟩ := b
  simp only [Bool.or_eq_true, Bool.and_eq_true, decide_eq_true_eq, beq_iff_eq,
    CalDate.mk.injEq]
  omega

theorem rataDie_inj {a b : CalDate} (ha : ValidDate a) (hb : ValidDate b)
    (h : rataDie a = rataDie b) : a = b := by
  rcases dateLt_trichotomy a b with hlt | heq | hgt
  · exact absurd h (Nat.ne_of_lt (rataDie_lt_of_dateLt ha hb hlt))
  · exact heq
  · exact absurd h.symm (Nat.ne_of_lt (rataDie_lt_of_dateLt hb ha hgt))

theorem dateLe_iff_rataDie_le {a b : CalDate} (ha : ValidDate a) (hb : ValidDate b) :
    dateLe a b = true ↔ rataDie a ≤ rataDie b := by
  constructor
  · intro h
    unfold dateLe at h
    simp only [Bool.or_eq_true, beq_iff_eq] at h
    rcases h with hlt | heq
    · exact Nat.le_of_lt (rataDie_lt_of_dateLt ha hb hlt)
    · rw [heq]
  · intro h
    rcases dateLt_trichotomy a b with hlt | heq | hgt
    · unfold dateLe
      simp [hlt]
    · unfold dateLe
      simp [heq]
    · exact absurd h (Nat.not_le_of_lt (rataDie_lt_of_dateLt hb ha hgt))

/-!
JavaScript `Map` model: an insertion-ordered association list.
`Map.prototype.set` updates an existing key in place (keeping its position)
and appends a fresh key at the end, which is exactly what `mapSet` does.
-/

/-- Lookup in a JS `Map` (`Map.prototype.get`). -/
def mapGet {κ β : Type} [DecidableEq κ] : List (κ × β) → κ → Option β
  | [], _ => none
  | (k', v) :: t, k => if k' = k then some v else mapGet t k

/-- Insertion/update in a JS `Map` (`Map.prototype.set`). -/
def mapSet {κ β : Type} [DecidableEq κ] : List (κ × β) → κ → β → List (κ × β)
  | [], k, v => [(k, v)]
  | (k', v') :: t, k, v =>
      if k' = k then (k, v) :: t else (k', v') :: mapSet t k v

/-- Membership test backing a JS `Set` of keys (`Set.prototype.add`). -/
def setAdd {κ : Type} [DecidableEq κ] (s : List κ) (x : κ) : List κ :=
  if x ∈ s then s else s ++ [x]

theorem mapGet_mapSet_self {κ β : Type} [DecidableEq κ]
    (l : List (κ × β)) (k : κ) (v : β) : mapGet (mapSet l k v) k = some v := by
  induction l with
  | nil => simp [mapSet, mapGet]
  | cons h t ih =>
    obtain ⟨k', v'⟩ := h
    by_cases hk : k' = k
    · simp [mapSet, mapGet, hk]
    · simp [mapSet, mapGet, hk, ih]

theorem mapGet_mapSet_ne {κ β : Type} [DecidableEq κ]
    (l : List (κ × β)) (k k' : κ) (v : β) (h : k ≠ k') :
    mapGet (mapSet l k v) k' = mapGet l k' := by
  induction l with
  | nil => simp [mapSet, mapGet, h]
  | cons hd t ih =>
    obtain ⟨k0, v0⟩ := hd
    by_cases hk : k0 = k
    · subst hk
      simp [mapSet, mapGet, h]
    · simp [mapSet, mapGet, hk, ih]

theorem mapSet_keys {κ β : Type} [DecidableEq κ]
    (l : List (κ × β)) (k : κ) (v : β) :
    (mapSet l k v).map Prod.fst =
      (if k ∈ l.map Prod.fst then l.map Prod.fst else l.map Prod.fst ++ [k]) := by
  induction l with
  | nil => simp [mapSet]
  | cons hd t ih =>
    obtain ⟨k0, v0⟩ := hd
    by_cases hk : k0 = k
    · subst hk
      simp [mapSet]
    · have hne : ¬k = k0 := fun h => hk h.symm
      simp only [mapSet, if_neg hk, List.map_cons, List.mem_cons, ih]
      by_cases hmem : k ∈ t.map Prod.fst
      · simp [hmem, hne]
      · simp [hmem, hne]

theorem mapSet_keys_nodup {κ β : Type} [DecidableEq κ]
    (l : List (κ × β)) (k : κ) (v : β) (h : (l.map Prod.fst).Nodup) :
    ((mapSet l k v).map Prod.fst).Nodup := by
  rw [mapSet_keys]
  by_cases hmem : k ∈ l.map Prod.fst
  · simpa [hmem] using h
  · simp only [if_neg hmem]
    refine List.Nodup.append h (List.nodup_singleton _) ?_
    intro a ha hak
    simp only [List.mem_singleton] at hak
    exact hmem (hak ▸ ha)

theorem mapGet_eq_none {κ β : Type} [DecidableEq κ]
    (l : List (κ × β)) (k : κ) :
    mapGet l k = none ↔ k ∉ l.map Prod.fst := by
  induction l with
  | nil => simp [mapGet]
  | cons hd t ih =>
    obtain ⟨k0, v0⟩ := hd
    by_cases hk : k0 = k
    · subst hk
      simp [mapGet]
    · have hne : k ≠ k0 := fun he => hk he.symm
      simp only [mapGet, if_neg hk, List.map_cons, List.mem_cons]
      rw [ih]
      simp [hne]

theorem mapGet_mem {κ β : Type} [DecidableEq κ]
    {l : List (κ × β)} {k : κ} {v : β} (h : mapGet l k = some v) : (k, v) ∈ l := by
  induction l with
  | nil => simp [mapGet] at h
  | cons hd t ih =>
    obtain ⟨k0, v0⟩ := hd
    by_cases hk : k0 = k
    · subst hk
      simp [mapGet] at h
      simp [h]
    · simp [mapGet, hk] at h
      exact List.mem_cons_of_mem _ (ih h)

theorem mem_mapGet {κ β : Type} [DecidableEq κ]
    {l : List (κ × β)} {k : κ} {v : β} (hnd : (l.map Prod.fst).Nodup)
    (h : (k, v) ∈ l) : mapGet l k = some v := by
  induction l with
  | nil => simp at h
  | cons hd t ih =>
    obtain ⟨k0, v0⟩ := hd
    simp only [List.map_cons, List.nodup_cons] at hnd
    rcases List.mem_cons.mp h with heq | hmem
    · injection heq with h1 h2
      subst h1
      subst h2
      simp [mapGet]
    · have hk : k0 ≠ k := by
        intro he
        subst he
        exact hnd.1 (List.mem_map.mpr ⟨(k0, v), hmem, rfl⟩)
      simp only [mapGet, if_neg hk]
      exact ih hnd.2 hmem

/-!
Data model of `src/core/types.ts` as used by the aggregation engine
(`src/core/aggregator.ts`).  Numeric fields are JavaScript numbers
(`JsNum`); the `date` field holds the parsed form of its `YYYY-MM-DD`
string.
-/

/-- Per-model subtotal within one calendar date. -/
structure ModelBreakdown : Type where
  modelName : String
  inputTokens : JsNum
  outputTokens : JsNum
  cacheCreationTokens : JsNum
  cacheReadTokens : JsNum
  cost : JsNum
deriving DecidableEq, Repr

/-- One calendar date's aggregated usage. -/
structure DailyUsage : Type where
  date : CalDate
  inputTokens : JsNum
  outputTokens : JsNum
  cacheCreationTokens : JsNum
  cacheReadTokens : JsNum
  totalTokens : JsNum
  totalCost : JsNum
  modelsUsed : List String
  modelBreakdowns : List ModelBreakdown
deriving DecidableEq, Repr

/-- The canonical usage record all provider data is normalized into. -/
structure UnifiedMessage : Type where
  id : String
  sessionId : String
  provider : String
  model : String
  inputTokens : JsNum
  outputTokens : JsNum
  reasoningTokens : JsNum
  cacheCreationTokens : JsNum
  cacheReadTokens : JsNum
  cost : JsNum
  timestamp : ℤ
  date : CalDate
deriving DecidableEq, Repr

/-- Factory for an empty `DailyUsage` (`createEmptyDailyUsage`). -/
def createEmptyDailyUsage (date : CalDate) : DailyUsage :=
  { date := date
    inputTokens := .fin 0
    outputTokens := .fin 0
    cacheCreationTokens := .fin 0
    cacheReadTokens := .fin 0
    totalTokens := .fin 0
    totalCost := .fin 0
    modelsUsed := []
    modelBreakdowns := [] }

/-- Factory for an empty `ModelBreakdown` (`createEmptyModelBreakdown`). -/
def createEmptyModelBreakdown (modelName : String) : ModelBreakdown :=
  { modelName := modelName
    inputTokens := .fin 0
    outputTokens := .fin 0
    cacheCreationTokens := .fin 0
    cacheReadTokens := .fin 0
    cost := .fin 0 }

/-- The `breakdown.<field> += msg.<field>` block inside the aggregation loop. -/
def breakdownAddMessage (b : ModelBreakdown) (msg : UnifiedMessage) : ModelBreakdown :=
  { b with
    inputTokens := b.inputTokens + msg.inputTokens
    outputTokens := b.outputTokens + msg.outputTokens
    cacheCreationTokens := b.cacheCreationTokens + msg.cacheCreationTokens
    cacheReadTokens := b.cacheReadTokens + msg.cacheReadTokens
    cost := b.cost + msg.cost }

/-- One iteration of the message loop of `aggregateMessagesByDailyUsage`:
look up (or lazily create) the per-date model map and the per-model
breakdown, then accumulate the message into the breakdown. -/
def aggStep (dailyMap : List (CalDate × List (String × ModelBreakdown)))
    (msg : UnifiedMessage) : List (CalDate × List (String × ModelBreakdown)) :=
  let modelMap := (mapGet dailyMap msg.date).getD []
  let breakdown := (mapGet modelMap msg.model).getD (createEmptyModelBreakdown msg.model)
  mapSet dailyMap msg.date (mapSet modelMap msg.model (breakdownAddMessage breakdown msg))

/-- The `daily.<field> += breakdown.<field>` block of the output loop. -/
def dailyAccum (acc : DailyUsage) (b : ModelBreakdown) : DailyUsage :=
  { acc with
    inputTokens := acc.inputTokens + b.inputTokens
    outputTokens := acc.outputTokens + b.outputTokens
    cacheCreationTokens := acc.cacheCreationTokens + b.cacheCreationTokens
    cacheReadTokens := acc.cacheReadTokens + b.cacheReadTokens
    totalCost := acc.totalCost + b.cost
    modelsUsed := acc.modelsUsed ++ [b.modelName] }

/-- Building one `DailyUsage` from a date's model breakdowns, including the
final `totalTokens` assignment. -/
def buildDailyUsage (date : CalDate) (modelBreakdowns : List ModelBreakdown) : DailyUsage :=
  let daily := modelBreakdowns.foldl dailyAccum
    { createEmptyDailyUsage date with modelBreakdowns := modelBreakdowns }
  { daily with
    totalTokens :=
      daily.inputTokens + daily.outputTokens +
      daily.cacheCreationTokens + daily.cacheReadTokens }

/-- The aggregation engine `aggregateMessagesByDailyUsage`: a two-level
insertion-ordered grouping (date, then model) followed by per-date totals
and an ascending sort by date. -/
def aggregateMessagesByDailyUsage (messages : List UnifiedMessage) : List DailyUsage :=
  let dailyMap := messages.foldl aggStep []
  let dailyUsage := dailyMap.map (fun e => buildDailyUsage e.1 (e.2.map Prod.snd))
  List.insertionSort (fun a b => dateLe a.date b.date = true) dailyUsage

/-- Usage map construction of `fillMissingDates`:
`new Map(dailyUsage.map((d) => [d.date, d]))` (later duplicates win). -/
def buildUsageMap (dailyUsage : List DailyUsage) : List (CalDate × DailyUsage) :=
  dailyUsage.foldl (fun m d => mapSet m d.date d) []

/-- The while-loop of `fillMissingDates`, with explicit fuel.  The fuel is
chosen by `fillMissingDates` so that it never runs out while the loop
condition `current ≤ end` still holds (proved for valid dates below). -/
def fillGo (usageMap : List (CalDate × DailyUsage)) (e : CalDate) :
    CalDate → ℕ → List DailyUsage
  | _, 0 => []
  | current, fuel + 1 =>
    if dateLe current e then
      (match mapGet usageMap current with
       | some existingUsage => existingUsage
       | none => createEmptyDailyUsage current) :: fillGo usageMap e (nextDay current) fuel
    else []

/-- Range completion `fillMissingDates`: one entry per calendar day from
`startDate` to `endDate` inclusive, reusing the input entry when present. -/
def fillMissingDates (dailyUsage : List DailyUsage) (startDate endDate : CalDate) :
    List DailyUsage :=
  fillGo (buildUsageMap dailyUsage) endDate startDate (rataDie endDate + 1 - rataDie startDate)

/-- Totals of a ccusage-style export (`generateCCUsageExport`). -/
structure CCUsageTotals : Type where
  inputTokens : JsNum
  outputTokens : JsNum
  cacheCreationTokens : JsNum
  cacheReadTokens : JsNum
  totalCost : JsNum
  totalTokens : JsNum
deriving DecidableEq, Repr

/-- Flat export shape `{ daily, totals }`. -/
structure CCUsageExport : Type where
  daily : List DailyUsage
  totals : CCUsageTotals
deriving DecidableEq, Repr

/-- The `totals.<field> += day.<field>` loop of `generateCCUsageExport`. -/
def totalsAccum (t : CCUsageTotals) (day : DailyUsage) : CCUsageTotals :=
  { inputTokens := t.inputTokens + day.inputTokens
    outputTokens := t.outputTokens + day.outputTokens
    cacheCreationTokens := t.cacheCreationTokens + day.cacheCreationTokens
    cacheReadTokens := t.cacheReadTokens + day.cacheReadTokens
    totalCost := t.totalCost + day.totalCost
    totalTokens := t.totalTokens + day.totalTokens }

/-- Export generation `generateCCUsageExport`. -/
def generateCCUsageExport (dailyUsage : List DailyUsage) : CCUsageExport :=
  { daily := dailyUsage
    totals := dailyUsage.foldl totalsAccum
      { inputTokens := .fin 0
        outputTokens := .fin 0
        cacheCreationTokens := .fin 0
        cacheReadTokens := .fin 0
        totalCost := .fin 0
        totalTokens := .fin 0 } }

/-!
Embedding of `src/core/statistics.ts`.
-/

/-- JavaScript unary minus. -/
def jsNeg : JsNum → JsNum
  | .fin q => .fin (-q)
  | .nan => .nan
  | .inf => .ninf
  | .ninf => .inf

/-- JavaScript subtraction. -/
def jsSub (a b : JsNum) : JsNum := jsAdd a (jsNeg b)

/-- JavaScript strict equality `===` on numbers (`NaN === NaN` is false). -/
def jsEq : JsNum → JsNum → Bool
  | .fin a, .fin b => a == b
  | .inf, .inf => true
  | .ninf, .ninf => true
  | _, _ => false

/-- JavaScript `<` on numbers (false whenever an operand is `NaN`). -/
def jsLt : JsNum → JsNum → Bool
  | .fin a, .fin b => a < b
  | .fin _, .inf => true
  | .ninf, .fin _ => true
  | .ninf, .inf => true
  | _, _ => false

/-- Whether a JS sort comparator result keeps the pair in order (result
`<= 0`; a `NaN` comparator result is treated as `0`). -/
def jsCmpKeeps : JsNum → Bool
  | .fin q => q ≤ 0
  | .ninf => true
  | .inf => false
  | .nan => true

/-- Ranking-table row keyed by provider or model name. -/
structure AggregatedUsageRow : Type where
  name : String
  messageCount : ℕ
  inputTokens : JsNum
  outputTokens : JsNum
  cacheCreationTokens : JsNum
  cacheReadTokens : JsNum
  totalTokens : JsNum
  totalCost : JsNum
  activeDays : ℕ
deriving DecidableEq, Repr

/-- Summary report of `computeUsageSummary`. -/
structure UsageSummary : Type where
  totals : CCUsageTotals
  providerRows : List AggregatedUsageRow
  modelRows : List AggregatedUsageRow
  messageCount : ℕ
  activeDays : ℕ
  totalDays : ℕ
  averageDailyCost : JsNum
  averageDailyTokens : JsNum
deriving DecidableEq, Repr

/-- Lowercased character sequence of a string (`String.prototype.toLowerCase`). -/
def lowerChars (s : String) : List Char := s.toList.map Char.toLower

/-- The provider alias table `PROVIDER_ALIASES`, keyed by the character
sequence of the alias. -/
def PROVIDER_ALIASES : List (List Char × String) := [("openai".toList, "codex")]

/-- Alias resolution `getCanonicalProviderName`: look up the lowercased raw
provider name in the alias table and fall back to the raw name. -/
def getCanonicalProviderName (provider : String) : String :=
  (mapGet PROVIDER_ALIASES (lowerChars provider)).getD provider

/-- Row factory `createEmptyRow`. -/
def createEmptyRow (name : String) : AggregatedUsageRow :=
  { name := name
    messageCount := 0
    inputTokens := .fin 0
    outputTokens := .fin 0
    cacheCreationTokens := .fin 0
    cacheReadTokens := .fin 0
    totalTokens := .fin 0
    totalCost := .fin 0
    activeDays := 0 }

/-- Row finalization `finalizeRow`: derive `totalTokens`. -/
def finalizeRow (row : AggregatedUsageRow) : AggregatedUsageRow :=
  { row with
    totalTokens :=
      row.inputTokens + row.outputTokens +
      row.cacheCreationTokens + row.cacheReadTokens }

/-- Accumulation `accumulateMessage`: each non-finite token or cost value
contributes `0`; `messageCount` is always incremented. -/
def accumulateMessage (row : AggregatedUsageRow) (message : UnifiedMessage) :
    AggregatedUsageRow :=
  { row with
    messageCount := row.messageCount + 1
    inputTokens :=
      row.inputTokens + (if message.inputTokens.isFinite then message.inputTokens else .fin 0)
    outputTokens :=
      row.outputTokens + (if message.outputTokens.isFinite then message.outputTokens else .fin 0)
    cacheCreationTokens :=
      row.cacheCreationTokens +
        (if message.cacheCreationTokens.isFinite then message.cacheCreationTokens else .fin 0)
    cacheReadTokens :=
      row.cacheReadTokens +
        (if message.cacheReadTokens.isFinite then message.cacheReadTokens else .fin 0)
    totalCost := row.totalCost + (if message.cost.isFinite then message.cost else .fin 0) }

/-- The sort comparator of `mapToSortedRows`: descending `totalCost`,
ties broken by descending `totalTokens`. -/
def rowCmpKeeps (a b : AggregatedUsageRow) : Prop :=
  jsCmpKeeps
    (if jsEq b.totalCost a.totalCost then jsSub b.totalTokens a.totalTokens
     else jsSub b.totalCost a.totalCost) = true

instance : DecidableRel rowCmpKeeps := by
  unfold rowCmpKeeps; infer_instance

/-- Finalize every row of a map and sort (`mapToSortedRows`). -/
def mapToSortedRows (usageMap : List (String × AggregatedUsageRow)) :
    List AggregatedUsageRow :=
  List.insertionSort rowCmpKeeps ((usageMap.map Prod.snd).map finalizeRow)

/-- Mutable state of the message loop of `computeUsageSummary`. -/
structure SummaryState : Type where
  providerMap : List (String × AggregatedUsageRow)
  modelMap : List (String × AggregatedUsageRow)
  providerDayTracker : List (String × List CalDate)
  modelDayTracker : List (String × List CalDate)

/-- One iteration of the message loop of `computeUsageSummary`.  In the
source the per-name row and day-tracker set are created lazily on first
sight and then mutated; the net effect is the map update below.  The
`if (date)` guard of the source is always taken here because a `CalDate`
models a non-empty date string. -/
def summaryStep (st : SummaryState) (message : UnifiedMessage) : SummaryState :=
  let providerName := getCanonicalProviderName message.provider
  let modelName := message.model
  let date := message.date
  let providerRow := (mapGet st.providerMap providerName).getD (createEmptyRow providerName)
  let modelRow := (mapGet st.modelMap modelName).getD (createEmptyRow modelName)
  let providerDates := (mapGet st.providerDayTracker providerName).getD []
  let modelDates := (mapGet st.modelDayTracker modelName).getD []
  { providerMap := mapSet st.providerMap providerName (accumulateMessage providerRow message)
    modelMap := mapSet st.modelMap modelName (accumulateMessage modelRow message)
    providerDayTracker := mapSet st.providerDayTracker providerName (setAdd providerDates date)
    modelDayTracker := mapSet st.modelDayTracker modelName (setAdd modelDates date) }

/-- The `row.activeDays = dates.size` loops of `computeUsageSummary`. -/
def applyActiveDays (rowMap : List (String × AggregatedUsageRow))
    (tracker : List (String × List CalDate)) : List (String × AggregatedUsageRow) :=
  tracker.foldl
    (fun rm e =>
      match mapGet rm e.1 with
      | some row => mapSet rm e.1 { row with activeDays := e.2.length }
      | none => rm)
    rowMap

/-- Summary computation `computeUsageSummary`. -/
def computeUsageSummary (messages : List UnifiedMessage) (dailyUsage : List DailyUsage) :
    UsageSummary :=
  let st := messages.foldl summaryStep ⟨[], [], [], []⟩
  let providerRows := mapToSortedRows (applyActiveDays st.providerMap st.providerDayTracker)
  let modelRows := mapToSortedRows (applyActiveDays st.modelMap st.modelDayTracker)
  let exportData := generateCCUsageExport dailyUsage
  let totals := exportData.totals
  let totalDays := dailyUsage.length
  let activeDays := (dailyUsage.filter (fun day => jsLt (.fin 0) day.totalCost)).length
  let averageDailyCost :=
    if totalDays > 0 then jsDiv totals.totalCost (.fin totalDays) else .fin 0
  let averageDailyTokens :=
    if totalDays > 0 then jsDiv totals.totalTokens (.fin totalDays) else .fin 0
  { totals := totals
    providerRows := providerRows
    modelRows := modelRows
    messageCount := messages.length
    activeDays := activeDays
    totalDays := totalDays
    averageDailyCost := averageDailyCost
    averageDailyTokens := averageDailyTokens }

/-!
Embedding of the pricing resolver (`src/core/pricing.ts`, re-exported via
`spawn-utils`) and the fallback price table (`src/core/database/prices.ts`).
The primary pricing service `calcPrice` from `@pydantic/genai-prices` is an
external black box; it is modelled as an oracle parameter.  Monetary values
never go through `NaN`-producing operations here, so plain rationals are
used.
-/

/-- A value of the primary service's per-model price record as classified by
`extractPrice`: a plain number, a string that `Number()` parses to a finite
value, a string it does not (including infinities), a tiered structure with
a numeric `base` field, or anything else. -/
inductive PriceVal : Type where
  | num (q : ℚ)
  | strNum (q : ℚ)
  | strNaN
  | tiered (base : ℚ)
  | other
deriving DecidableEq, Repr

/-- Numeric coercion `extractPrice`. -/
def extractPrice : PriceVal → ℚ
  | .num q => q
  | .strNum q => q
  | .strNaN => 0
  | .tiered base => base
  | .other => 0

/-- A priced result returned by the primary service `calcPrice`. -/
structure PrimaryResult : Type where
  total_price : ℚ
  input_price : ℚ
  output_price : ℚ
  pricesIsArray : Bool
  hasCacheWriteField : Bool
  cache_write_mtok : PriceVal
  cache_read_mtok : PriceVal
  providerName : String
  modelName : String
deriving DecidableEq, Repr

/-- The primary pricing service as a black-box oracle:
`calcPrice(usage, model, providerId?)`. -/
def PriceOracle : Type := ℚ → ℚ → String → Option String → Option PrimaryResult

/-- An entry of the fallback price table. -/
structure FallbackModelPrice : Type where
  model : String
  provider : Option String := none
  inputPer1M : ℚ
  outputPer1M : ℚ
  cacheWritePer1M : Option ℚ := none
  cacheReadPer1M : Option ℚ := none
  notes : Option String := none
deriving DecidableEq, Repr

/-- JavaScript `a.includes(b)` on character sequences. -/
def jsIncludes (a b : List Char) : Bool := decide (b <:+: a)

/-- The static fallback pricing database `FALLBACK_PRICES`. -/
def FALLBACK_PRICES : List FallbackModelPrice :=
  [ { model := "glm-4.5", inputPer1M := 35/100, outputPer1M := 155/100,
      notes := some "Free tier or custom pricing" }
  , { model := "glm-4.5-air", inputPer1M := 13/100, outputPer1M := 85/100,
      notes := some "Free tier or custom pricing" }
  , { model := "qwen/qwen3-coder-30b", inputPer1M := 6/100, outputPer1M := 25/100 }
  , { model := "coder-model", inputPer1M := 1, outputPer1M := 5 }
  , { model := "gemini-2.5-pro", inputPer1M := 125/100, outputPer1M := 5,
      cacheReadPer1M := some (3125/10000),
      notes := some "Gemini 2.5 Pro with extended thinking" }
  , { model := "gemini-2.0-flash-exp", inputPer1M := 0, outputPer1M := 0,
      notes := some "Gemini 2.0 Flash Experimental - Free tier" }
  , { model := "gemini-2.0-flash-thinking-exp", inputPer1M := 0, outputPer1M := 0,
      notes := some "Gemini 2.0 Flash Thinking Experimental - Free tier" }
  , { model := "gemini-1.5-pro", inputPer1M := 125/100, outputPer1M := 5,
      cacheReadPer1M := some (3125/10000), notes := some "Gemini 1.5 Pro" }
  , { model := "gemini-1.5-flash", inputPer1M := 75/1000, outputPer1M := 3/10,
      cacheReadPer1M := some (1875/100000), notes := some "Gemini 1.5 Flash" }
  ]

/-- Fallback lookup `findFallbackPrice`: exact `(model, provider)` match
(only when `providerId` is truthy), then exact model match, then
case-insensitive substring match in either direction; `List.find?` returns
the first matching entry in table order at each stage. -/
def findFallbackPrice (table : List FallbackModelPrice) (modelName : String)
    (providerId : Option String) : Option FallbackModelPrice :=
  let exactPair :=
    match providerId with
    | some pid =>
        if pid.isEmpty then none
        else table.find? (fun (p : FallbackModelPrice) =>
          p.model == modelName && p.provider == some pid)
    | none => none
  match exactPair with
  | some e => some e
  | none =>
    match table.find? (fun (p : FallbackModelPrice) => p.model == modelName) with
    | some e => some e
    | none =>
        let lowerModelName := lowerChars modelName
        table.find? (fun (p : FallbackModelPrice) =>
          jsIncludes (lowerChars p.model) lowerModelName ||
          jsIncludes lowerModelName (lowerChars p.model))

/-- JavaScript truthiness of the optional `providerId` argument
(`providerId ? {providerId} : undefined`). -/
def normProvider : Option String → Option String
  | some s => if s.isEmpty then none else some s
  | none => none

/-- Character-level whitespace trim (`String.prototype.trim`). -/
def trimChars (s : List Char) : List Char :=
  ((s.dropWhile Char.isWhitespace).reverse.dropWhile Char.isWhitespace).reverse

/-- JavaScript blank-model guard `!model || model.trim() === ''`. -/
def isBlankModel (model : String) : Bool :=
  model.isEmpty || trimChars model.toList == []

/-- Fallback cost formula `calculateFromFallback`. -/
def calculateFromFallback (fallbackPrice : FallbackModelPrice)
    (inputTokens outputTokens cacheCreationTokens cacheReadTokens : ℚ) : ℚ :=
  let inputCost := inputTokens / 1000000 * fallbackPrice.inputPer1M
  let outputCost := outputTokens / 1000000 * fallbackPrice.outputPer1M
  let cacheWriteCost := cacheCreationTokens / 1000000 * (fallbackPrice.cacheWritePer1M.getD 0)
  let cacheReadCost := cacheReadTokens / 1000000 * (fallbackPrice.cacheReadPer1M.getD 0)
  inputCost + outputCost + cacheWriteCost + cacheReadCost

/-- Tiered cost resolution `calculateCost`: blank-model guard, then the
primary service (augmented with cache costs when its price record has
cache fields), then the fallback table, then `0`. -/
def calculateCost (oracle : PriceOracle) (table : List FallbackModelPrice)
    (model : String) (inputTokens outputTokens cacheCreationTokens cacheReadTokens : ℚ)
    (providerId : Option String := none) : ℚ :=
  if isBlankModel model then 0
  else
    match oracle inputTokens outputTokens model (normProvider providerId) with
    | some result =>
        let totalCost := result.total_price
        if 0 < cacheCreationTokens ∨ 0 < cacheReadTokens then
          if !result.pricesIsArray && result.hasCacheWriteField then
            let cacheWritePrice := extractPrice result.cache_write_mtok
            let cacheReadPrice := extractPrice result.cache_read_mtok
            let cacheWriteCost := cacheCreationTokens / 1000000 * cacheWritePrice
            let cacheReadCost := cacheReadTokens / 1000000 * cacheReadPrice
            totalCost + (cacheWriteCost + cacheReadCost)
          else totalCost
        else totalCost
    | none =>
        match findFallbackPrice table model providerId with
        | some fallbackPrice =>
            calculateFromFallback fallbackPrice
              inputTokens outputTokens cacheCreationTokens cacheReadTokens
        | none => 0

/-- Which pricing tier answered a detailed cost query
(`'genai-prices' | 'fallback' | 'none'`). -/
inductive CostSource : Type where
  | genaiPrices
  | fallbackTier
  | noneTier
deriving DecidableEq, Repr

/-- Itemized result of `calculateDetailedCost`. -/
structure CalculatedCost : Type where
  totalCost : ℚ
  inputCost : ℚ
  outputCost : ℚ
  cacheWriteCost : ℚ
  cacheReadCost : ℚ
  providerName : Option String := none
  modelName : Option String := none
  source : CostSource
deriving DecidableEq, Repr

/-- Detailed tiered cost resolution `calculateDetailedCost`. -/
def calculateDetailedCost (oracle : PriceOracle) (table : List FallbackModelPrice)
    (model : String) (inputTokens outputTokens cacheCreationTokens cacheReadTokens : ℚ)
    (providerId : Option String := none) : CalculatedCost :=
  if isBlankModel model then
    { inputCost := 0, outputCost := 0, cacheWriteCost := 0, cacheReadCost := 0,
      totalCost := 0, source := .noneTier }
  else
    match oracle inputTokens outputTokens model (normProvider providerId) with
    | some result =>
        let inputCost := result.input_price
        let outputCost := result.output_price
        let cacheCosts :=
          if !result.pricesIsArray && result.hasCacheWriteField then
            (cacheCreationTokens / 1000000 * extractPrice result.cache_write_mtok,
             cacheReadTokens / 1000000 * extractPrice result.cache_read_mtok)
          else (0, 0)
        { totalCost := inputCost + outputCost + cacheCosts.1 + cacheCosts.2
          inputCost := inputCost
          outputCost := outputCost
          cacheWriteCost := cacheCosts.1
          cacheReadCost := cacheCosts.2
          providerName := some result.providerName
          modelName := some result.modelName
          source := .genaiPrices }
    | none =>
        match findFallbackPrice table model providerId with
        | some fallbackPrice =>
            let inputCost := inputTokens / 1000000 * fallbackPrice.inputPer1M
            let outputCost := outputTokens / 1000000 * fallbackPrice.outputPer1M
            let cacheWriteCost :=
              cacheCreationTokens / 1000000 * (fallbackPrice.cacheWritePer1M.getD 0)
            let cacheReadCost :=
              cacheReadTokens / 1000000 * (fallbackPrice.cacheReadPer1M.getD 0)
            { totalCost := inputCost + outputCost + cacheWriteCost + cacheReadCost
              inputCost := inputCost
              outputCost := outputCost
              cacheWriteCost := cacheWriteCost
              cacheReadCost := cacheReadCost
              providerName := fallbackPrice.provider
              modelName := some fallbackPrice.model
              source := .fallbackTier }
        | none =>
            { totalCost := 0, inputCost := 0, outputCost := 0,
              cacheWriteCost := 0, cacheReadCost := 0, source := .noneTier }

/-!
Embedding of the record normalizers relevant to the claims: the OpenCode
adapter's per-message normalization (`src/providers/opencode.ts`), the
ccusage adapter's cost selection (`calculateCostOrUseFallback` in
`src/providers/ccusage.ts`) and the Codex adapter's per-day conversion
(`src/providers/codex.ts`).  File-system traversal, process spawning and
schema validation happen before the modelled code runs; the embeddings take
the already-parsed entries.  The timezone-dependent dayjs date/timestamp
derivations are oracle parameters (`dateOf`, `tsOf`).
-/

/-- Parsed `tokens.cache` object of an OpenCode message. -/
structure OCCache : Type where
  write : ℚ
  read : ℚ
deriving DecidableEq, Repr

/-- Parsed `tokens` object of an OpenCode message. -/
structure OCTokens : Type where
  input : ℚ
  output : ℚ
  reasoning : Option ℚ := none
  cache : Option OCCache := none
deriving DecidableEq, Repr

/-- A schema-valid OpenCode storage message (`MessageSchema`). -/
structure OCMessage : Type where
  id : String
  role : String
  sessionID : String
  modelID : Option String := none
  providerID : Option String := none
  tokens : Option OCTokens := none
  cost : Option ℚ := none
  timeCreated : ℤ
  timeCompleted : Option ℤ := none
deriving DecidableEq, Repr

/-- The per-message body of `OpenCodeAdapter.fetchMessages`: skip non-billable
roles and token-less messages, then normalize.  Note the cost selection is
`message.cost ?? calculateCost(...)`: a present cost is kept even when `0`. -/
def normalizeOpenCodeMessage (oracle : PriceOracle) (table : List FallbackModelPrice)
    (dateOf : ℤ → CalDate) (message : OCMessage) : Option UnifiedMessage :=
  if message.role ≠ "assistant" then none
  else
    match message.tokens with
    | none => none
    | some tokens =>
      let inputTokens := tokens.input
      let outputTokens := tokens.output
      let reasoningTokens := tokens.reasoning.getD 0
      let cacheCreationTokens := (tokens.cache.map OCCache.write).getD 0
      let cacheReadTokens := (tokens.cache.map OCCache.read).getD 0
      let model := message.modelID.getD "unknown"
      let cost := message.cost.getD
        (calculateCost oracle table model
          inputTokens outputTokens cacheCreationTokens cacheReadTokens none)
      let timestamp := message.timeCompleted.getD message.timeCreated
      some
        { id := message.id
          sessionId := message.sessionID
          provider := message.providerID.getD "opencode"
          model := model
          inputTokens := .fin inputTokens
          outputTokens := .fin outputTokens
          reasoningTokens := .fin reasoningTokens
          cacheCreationTokens := .fin cacheCreationTokens
          cacheReadTokens := .fin cacheReadTokens
          cost := .fin cost
          timestamp := timestamp
          date := dateOf timestamp }

/-- Cost selection of the ccusage conversion (`calculateCostOrUseFallback`):
a provided cost is used only when strictly positive. -/
def calculateCostOrUseFallback (oracle : PriceOracle) (table : List FallbackModelPrice)
    (existingCost : ℚ) (model : String)
    (inputTokens outputTokens cacheCreationTokens cacheReadTokens : ℚ)
    (provider : String) : ℚ :=
  if 0 < existingCost then existingCost
  else
    calculateCost oracle table model
      inputTokens outputTokens cacheCreationTokens cacheReadTokens (some provider)

/-- A per-model entry of a Codex daily export (`CodexModelSchema`). -/
structure CodexModelData : Type where
  inputTokens : ℚ
  cachedInputTokens : ℚ
  outputTokens : ℚ
  reasoningOutputTokens : ℚ
  totalTokens : ℚ
  isFallback : Bool
deriving DecidableEq, Repr

/-- A daily entry of a Codex export (`CodexDailySchema`); `models` carries
`Object.entries` order. -/
structure CodexDaily : Type where
  date : String
  costUSD : ℚ
  models : List (String × CodexModelData)
deriving DecidableEq, Repr

/-- The per-day loop body of `CodexAdapter.fetchMessages`: input tokens are
reported cached-inclusive, so the adapter subtracts `cachedInputTokens`; the
day's `costUSD` is split evenly across the day's models. -/
def convertCodexDaily (tsOf : String → ℤ) (dateOfTs : ℤ → CalDate)
    (dailyEntry : CodexDaily) : List UnifiedMessage :=
  let modelEntries := dailyEntry.models
  modelEntries.enum.map (fun ie =>
    let i := ie.1
    let modelName := ie.2.1
    let modelData := ie.2.2
    let timestamp := tsOf dailyEntry.date
    let date := dateOfTs timestamp
    let cacheReadTokens := modelData.cachedInputTokens
    let actualInputTokens := modelData.inputTokens - modelData.cachedInputTokens
    let cost := dailyEntry.costUSD / (modelEntries.length : ℚ)
    { id := "codex-" ++ dailyEntry.date ++ "-" ++ modelName ++ "-" ++ toString i
      sessionId := "codex-session-" ++ dailyEntry.date
      provider := "codex"
      model := modelName
      inputTokens := .fin actualInputTokens
      outputTokens := .fin modelData.outputTokens
      reasoningTokens := .fin modelData.reasoningOutputTokens
      cacheCreationTokens := .fin 0
      cacheReadTokens := .fin cacheReadTokens
      cost := .fin cost
      timestamp := timestamp
      date := date })

/-!
Embedding of `DatabaseManager.recalculateCosts` (`src/database/manager.ts`).
The stored table is modelled as the list of rows the initial `SELECT`
returns; the `UPDATE` statements are modelled by rebuilding the row list.
-/

/-- A row of the cost-recalculation `SELECT`. -/
structure CostRow : Type where
  id : String
  provider : String
  model : String
  input_tokens : ℚ
  output_tokens : ℚ
  cache_creation_tokens : ℚ
  cache_read_tokens : ℚ
  cost : ℚ
deriving DecidableEq, Repr

/-- One iteration of the cost-recalculation loop: skip when
`!recalculateAll && msg.cost > 0`, otherwise recompute the cost, write it
back and count the update. -/
def recalcStep (oracle : PriceOracle) (table : List FallbackModelPrice)
    (recalculateAll : Bool) (acc : List CostRow × ℕ) (msg : CostRow) :
    List CostRow × ℕ :=
  if recalculateAll = false ∧ 0 < msg.cost then (acc.1 ++ [msg], acc.2)
  else
    let newCost := calculateCost oracle table msg.model
      msg.input_tokens msg.output_tokens
      msg.cache_creation_tokens msg.cache_read_tokens (some msg.provider)
    (acc.1 ++ [{ msg with cost := newCost }], acc.2 + 1)

/-- Cost recalculation pass `recalculateCosts`: rows kept when
`!recalculateAll && cost > 0`, otherwise recomputed and counted.  Returns
the final rows and the count of rows written. -/
def recalculateCosts (oracle : PriceOracle) (table : List FallbackModelPrice)
    (rows : List CostRow) (recalculateAll : Bool := false) : List CostRow × ℕ :=
  rows.foldl (recalcStep oracle table recalculateAll) ([], 0)

/-!
Auxiliary definitions used by the theorems below: the three match
predicates of the staged fallback lookup, a first-match predicate, and
concrete example inputs used to witness hypotheses.
-/

/-- Stage-1 predicate of `findFallbackPrice`: exact `(model, provider)`. -/
def fallbackStage1 (modelName pid : String) (p : FallbackModelPrice) : Bool :=
  p.model == modelName && p.provider == some pid

/-- Stage-2 predicate of `findFallbackPrice`: exact model. -/
def fallbackStage2 (modelName : String) (p : FallbackModelPrice) : Bool :=
  p.model == modelName

/-- Stage-3 predicate of `findFallbackPrice`: case-insensitive substring
match in either direction. -/
def fallbackStage3 (modelName : String) (p : FallbackModelPrice) : Bool :=
  jsIncludes (lowerChars p.model) (lowerChars modelName) ||
  jsIncludes (lowerChars modelName) (lowerChars p.model)

/-- The element `e` is the first element of `l` satisfying `P` (everything
before it fails `P`): the semantics of a linear scan such as
`Array.prototype.find`. -/
def isFirstMatch {α : Type} (l : List α) (P : α → Bool) (e : α) : Prop :=
  P e = true ∧ ∃ l₁ l₂, l = l₁ ++ e :: l₂ ∧ ∀ x ∈ l₁, P x = false

/-- An oracle for a primary pricing service that knows no model. -/
def oracleNone : PriceOracle := fun _ _ _ _ => none

/-- An example priced result of the primary service. -/
def primaryResultEx : PrimaryResult :=
  { total_price := 42
    input_price := 30
    output_price := 12
    pricesIsArray := false
    hasCacheWriteField := true
    cache_write_mtok := .num 2
    cache_read_mtok := .strNum 1
    providerName := "exampleprov"
    modelName := "known-model" }

/-- An oracle knowing exactly the model `known-model`. -/
def oracleKnown : PriceOracle := fun _ _ model _ =>
  if model == "known-model" then some primaryResultEx else none

/-- A fixed date used where a dayjs timestamp-to-date conversion is needed
in witnesses. -/
def dateOfEx : ℤ → CalDate := fun _ => ⟨2024, 1, 1⟩

/-- A fixed timestamp oracle for witnesses. -/
def tsOfEx : String → ℤ := fun _ => 0

/-- An OpenCode message whose source cost is present and equal to `0`. -/
def ocMsgEx : OCMessage :=
  { id := "msg_1"
    role := "assistant"
    sessionID := "ses_1"
    modelID := some "glm-4.5"
    tokens := some { input := 100, output := 50 }
    cost := some 0
    timeCreated := 1700000000000 }

/-- A Codex daily entry whose model reports more cached input tokens than
input tokens. -/
def codexDailyEx : CodexDaily :=
  { date := "Oct 10, 2025"
    costUSD := 10
    models :=
      [("gpt-5-codex",
        { inputTokens := 5, cachedInputTokens := 10, outputTokens := 3,
          reasoningOutputTokens := 0, totalTokens := 8, isFallback := false })] }

/-- A stored record with cost `0` (needs recalculation). -/
def costRowZero : CostRow :=
  { id := "r1", provider := "codex", model := "unknown-model", input_tokens := 1,
    output_tokens := 2, cache_creation_tokens := 0, cache_read_tokens := 0, cost := 0 }

/-- A stored record with a positive cost. -/
def costRowPaid : CostRow :=
  { id := "r2", provider := "codex", model := "unknown-model", input_tokens := 1,
    output_tokens := 2, cache_creation_tokens := 0, cache_read_tokens := 0, cost := 3 }

/-- A Codex daily entry with well-formed token counts. -/
def codexDailyOk : CodexDaily :=
  { date := "Oct 11, 2025"
    costUSD := 4
    models :=
      [("gpt-5-codex",
        { inputTokens := 10, cachedInputTokens := 4, outputTokens := 3,
          reasoningOutputTokens := 2, totalTokens := 13, isFallback := false })] }

/-- A canonical record tagged with the aliased provider name `openai`. -/
def msgOpenAI : UnifiedMessage :=
  { id := "m1", sessionId := "s1", provider := "openai", model := "gpt-5"
    inputTokens := .fin 100, outputTokens := .fin 60, reasoningTokens := .fin 0
    cacheCreationTokens := .fin 0, cacheReadTokens := .fin 0, cost := .fin 1
    timestamp := 0, date := ⟨2024, 1, 1⟩ }

/-- A canonical record tagged with the canonical provider name `codex`. -/
def msgCodex : UnifiedMessage :=
  { id := "m2", sessionId := "s2", provider := "codex", model := "gpt-5"
    inputTokens := .fin 70, outputTokens := .fin 40, reasoningTokens := .fin 0
    cacheCreationTokens := .fin 0, cacheReadTokens := .fin 0, cost := .fin 2
    timestamp := 0, date := ⟨2024, 1, 2⟩ }

/-- A canonical record with a `NaN` cost and an `Infinity` token count. -/
def msgNaN : UnifiedMessage :=
  { id := "m3", sessionId := "s3", provider := "codex", model := "gpt-5"
    inputTokens := .inf, outputTokens := .fin 40, reasoningTokens := .fin 0
    cacheCreationTokens := .fin 0, cacheReadTokens := .fin 0, cost := .nan
    timestamp := 0, date := ⟨2024, 1, 2⟩ }

/-- C7: when the daily-usage list is empty (`totalDays == 0`),
`averageDailyCost` and `averageDailyTokens` are exactly `0` — finite, not
`NaN` or `Infinity` — because the division only runs when `totalDays > 0`. -/
theorem computeUsageSummary_zero_days (messages : List UnifiedMessage)
    (dailyUsage : List DailyUsage) (h : dailyUsage = []) :
    (computeUsageSummary messages dailyUsage).totalDays = 0 ∧
    (computeUsageSummary messages dailyUsage).averageDailyCost = JsNum.fin 0 ∧
    (computeUsageSummary messages dailyUsage).averageDailyTokens = JsNum.fin 0 ∧
    (computeUsageSummary messages dailyUsage).averageDailyCost.isFinite = true ∧
    (computeUsageSummary messages dailyUsage).averageDailyTokens.isFinite = true := by
  subst h
  simp [computeUsageSummary, JsNum.isFinite]

/-- Witness for C7 at a concrete input. -/
theorem computeUsageSummary_zero_days_witness :
    (computeUsageSummary [msgNaN] []).averageDailyCost = JsNum.fin 0 ∧
    (computeUsageSummary [msgNaN] []).averageDailyTokens = JsNum.fin 0 :=
  ⟨(computeUsageSummary_zero_days [msgNaN] [] rfl).2.1,
   (computeUsageSummary_zero_days [msgNaN] [] rfl).2.2.1⟩

/-- C2: for a non-blank model, when the primary service returns a priced
result the cost is computed from that result alone — the result does not
depend on the fallback table at all — and the detailed variant reports the
primary tier (`'genai-prices'`) as the source; the fallback table is
consulted only when the primary service returns nothing, and when neither
tier matches the cost is `0` with source `'none'`. -/
theorem calculateCost_tier_precedence (oracle : PriceOracle) (model : String)
    (inp out cw cr : ℚ) (pid : Option String)
    (hblank : isBlankModel model = false) :
    (∀ r, oracle inp out model (normProvider pid) = some r →
      (∀ table₁ table₂ : List FallbackModelPrice,
        calculateCost oracle table₁ model inp out cw cr pid =
          calculateCost oracle table₂ model inp out cw cr pid) ∧
      (∀ table : List FallbackModelPrice,
        (calculateDetailedCost oracle table model inp out cw cr pid).source =
          CostSource.genaiPrices)) ∧
    (oracle inp out model (normProvider pid) = none →
      ∀ table : List FallbackModelPrice,
        (∀ fp, findFallbackPrice table model pid = some fp →
          calculateCost oracle table model inp out cw cr pid =
            calculateFromFallback fp inp out cw cr ∧
          (calculateDetailedCost oracle table model inp out cw cr pid).source =
            CostSource.fallbackTier) ∧
        (findFallbackPrice table model pid = none →
          calculateCost oracle table model inp out cw cr pid = 0 ∧
          (calculateDetailedCost oracle table model inp out cw cr pid).source =
            CostSource.noneTier)) := by
  constructor
  · intro r hr
    constructor
    · intro table₁ table₂
      simp [calculateCost, hblank, hr]
    · intro table
      simp [calculateDetailedCost, hblank, hr]
  · intro hnone table
    constructor
    · intro fp hfp
      constructor
      · simp [calculateCost, hblank, hnone, hfp]
      · simp [calculateDetailedCost, hblank, hnone, hfp]
    · intro hfp
      constructor
      · simp [calculateCost, hblank, hnone, hfp]
      · simp [calculateDetailedCost, hblank, hnone, hfp]

/-- Witness for C2 at concrete inputs: a model known to the primary service
resolves identically with the full table and the empty table, with source
`'genai-prices'`; an unknown model falls back, and an unknown model with an
empty table costs `0`. -/
theorem calculateCost_tier_precedence_witness :
    calculateCost oracleKnown FALLBACK_PRICES "known-model" 10 20 5 7 none =
      calculateCost oracleKnown [] "known-model" 10 20 5 7 none ∧
    (calculateDetailedCost oracleKnown FALLBACK_PRICES "known-model" 10 20 5 7 none).source =
      CostSource.genaiPrices ∧
    calculateCost oracleNone FALLBACK_PRICES "glm-4.5" 10 20 0 0 none =
      calculateFromFallback (FALLBACK_PRICES.get ⟨0, by decide⟩) 10 20 0 0 ∧
    calculateCost oracleNone [] "glm-4.5" 10 20 0 0 none = 0 := by
  have hk := calculateCost_tier_precedence oracleKnown "known-model" 10 20 5 7 none (by decide)
  have hu := calculateCost_tier_precedence oracleNone "glm-4.5" 10 20 0 0 none (by decide)
  refine ⟨(hk.1 primaryResultEx rfl).1 FALLBACK_PRICES [],
          (hk.1 primaryResultEx rfl).2 FALLBACK_PRICES, ?_, ?_⟩
  · exact (((hu.2 rfl) FALLBACK_PRICES).1 (FALLBACK_PRICES.get ⟨0, by decide⟩) rfl).1
  · exact (((hu.2 rfl) []).2 (by decide)).1

theorem find?_eq_some_iff_firstMatch {α : Type} (P : α → Bool) :
    ∀ (l : List α) (e : α), l.find? P = some e ↔ isFirstMatch l P e := by
  intro l
  induction l with
  | nil =>
    intro e
    constructor
    · intro h
      simp [List.find?] at h
    · rintro ⟨_, l₁, l₂, heq, _⟩
      cases l₁ <;> simp at heq
  | cons a t ih =>
    intro e
    by_cases hpa : P a = true
    · rw [List.find?_cons_of_pos _ hpa]
      constructor
      · intro h
        injection h with h
        subst h
        exact ⟨hpa, [], t, rfl, by simp⟩
      · rintro ⟨hp, l₁, l₂, heq, hfail⟩
        cases l₁ with
        | nil =>
          simp only [List.nil_append, List.cons.injEq] at heq
          rw [heq.1]
        | cons b l₁ =>
          simp only [List.cons_append, List.cons.injEq] at heq
          have hfa : P a = false := heq.1 ▸ hfail b (by simp)
          rw [hpa] at hfa
          cases hfa
    · have hpa' : P a = false := by
        cases h : P a
        · rfl
        · exact absurd h hpa
      rw [List.find?_cons_of_neg _ (by simp [hpa'])]
      rw [ih e]
      constructor
      · rintro ⟨hp, l₁, l₂, heq, hfail⟩
        refine ⟨hp, a :: l₁, l₂, by rw [heq, List.cons_append], ?_⟩
        intro x hx
        rcases List.mem_cons.mp hx with hxa | hxm
        · rw [hxa]; exact hpa'
        · exact hfail x hxm
      · rintro ⟨hp, l₁, l₂, heq, hfail⟩
        cases l₁ with
        | nil =>
          simp only [List.nil_append, List.cons.injEq] at heq
          rw [heq.1] at hpa'
          rw [hp] at hpa'
          cases hpa'
        | cons b l₁ =>
          simp only [List.cons_append, List.cons.injEq] at heq
          exact ⟨hp, l₁, l₂, heq.2, fun x hx => hfail x (List.mem_cons_of_mem _ hx)⟩

theorem findFallbackPrice_none_pid (table : List FallbackModelPrice) (modelName : String) :
    findFallbackPrice table modelName none =
      (match table.find? (fallbackStage2 modelName) with
       | some e => some e
       | none => table.find? (fallbackStage3 modelName)) := rfl

theorem findFallbackPrice_some_pid (table : List FallbackModelPrice)
    (modelName pid : String) :
    findFallbackPrice table modelName (some pid) =
      (match (if pid.isEmpty = true then none
              else table.find? (fallbackStage1 modelName pid)) with
       | some e => some e
       | none =>
         match table.find? (fallbackStage2 modelName) with
         | some e => some e
         | none => table.find? (fallbackStage3 modelName)) := rfl

/-- Stage 1 of `findFallbackPrice` yields nothing: the provider hint is
absent, empty, or matches no `(model, provider)` pair. -/
def stage1Misses (table : List FallbackModelPrice) (modelName : String)
    (providerId : Option String) : Prop :=
  match providerId with
  | none => True
  | some pid =>
      pid.isEmpty = true ∨ ∀ p ∈ table, fallbackStage1 modelName pid p = false

/-- C4: `findFallbackPrice` tries its three stages in strict order — exact
`(model, providerHint)` when the hint is truthy, then exact `model`, then
case-insensitive substring in either direction — and at each stage returns
the first matching entry in table order; when no stage matches it returns
nothing.  Being a pure function of its arguments, the same query always
resolves to the same entry. -/
theorem findFallbackPrice_staged (table : List FallbackModelPrice)
    (modelName : String) (providerId : Option String) :
    (∀ pid e, providerId = some pid → pid.isEmpty = false →
      isFirstMatch table (fallbackStage1 modelName pid) e →
      findFallbackPrice table modelName providerId = some e) ∧
    (∀ e, stage1Misses table modelName providerId →
      isFirstMatch table (fallbackStage2 modelName) e →
      findFallbackPrice table modelName providerId = some e) ∧
    (∀ e, stage1Misses table modelName providerId →
      (∀ p ∈ table, fallbackStage2 modelName p = false) →
      isFirstMatch table (fallbackStage3 modelName) e →
      findFallbackPrice table modelName providerId = some e) ∧
    (stage1Misses table modelName providerId →
      (∀ p ∈ table, fallbackStage2 modelName p = false) →
      (∀ p ∈ table, fallbackStage3 modelName p = false) →
      findFallbackPrice table modelName providerId = none) := by
  have hstage1 : ∀ pid, stage1Misses table modelName (some pid) →
      (if pid.isEmpty = true then none
       else table.find? (fallbackStage1 modelName pid)) = none := by
    intro pid hmiss
    unfold stage1Misses at hmiss
    rcases h : pid.isEmpty
    · simp only [Bool.false_eq_true, if_false]
      rcases hmiss with hm | hm
      · rw [hm] at h; cases h
      · exact List.find?_eq_none.mpr (fun x hx => by simp [hm x hx])
    · simp
  refine ⟨?_, ?_, ?_, ?_⟩
  · intro pid e hpid hne hfirst
    subst hpid
    have hfind : table.find? (fallbackStage1 modelName pid) = some e :=
      (find?_eq_some_iff_firstMatch _ table e).mpr hfirst
    rw [findFallbackPrice_some_pid, hne, hfind]
    rfl
  · intro e hmiss hfirst
    have hfind : table.find? (fallbackStage2 modelName) = some e :=
      (find?_eq_some_iff_firstMatch _ table e).mpr hfirst
    rcases providerId with _ | pid
    · rw [findFallbackPrice_none_pid, hfind]
    · rw [findFallbackPrice_some_pid, hstage1 pid hmiss, hfind]
  · intro e hmiss h2 hfirst
    have h2' : table.find? (fallbackStage2 modelName) = none :=
      List.find?_eq_none.mpr (fun x hx => by simp [h2 x hx])
    have hfind : table.find? (fallbackStage3 modelName) = some e :=
      (find?_eq_some_iff_firstMatch _ table e).mpr hfirst
    rcases providerId with _ | pid
    · rw [findFallbackPrice_none_pid, h2', hfind]
    · rw [findFallbackPrice_some_pid, hstage1 pid hmiss, h2', hfind]
  · intro hmiss h2 h3
    have h2' : table.find? (fallbackStage2 modelName) = none :=
      List.find?_eq_none.mpr (fun x hx => by simp [h2 x hx])
    have h3' : table.find? (fallbackStage3 modelName) = none :=
      List.find?_eq_none.mpr (fun x hx => by simp [h3 x hx])
    rcases providerId with _ | pid
    · rw [findFallbackPrice_none_pid, h2', h3']
    · rw [findFallbackPrice_some_pid, hstage1 pid hmiss, h2', h3']

/-- Witness for C4: a substring query resolves to the first substring match
in table order (index 7, past seven non-matching entries), and an exact
model query with an unmatched provider hint resolves at stage 2. -/
theorem findFallbackPrice_staged_witness :
    findFallbackPrice FALLBACK_PRICES "gemini-1.5-pro-latest" none =
      some (FALLBACK_PRICES.get ⟨7, by decide⟩) ∧
    findFallbackPrice FALLBACK_PRICES "glm-4.5" (some "zhipu") =
      some (FALLBACK_PRICES.get ⟨0, by decide⟩) := by
  constructor
  · exact (findFallbackPrice_staged FALLBACK_PRICES "gemini-1.5-pro-latest" none).2.2.1
      (FALLBACK_PRICES.get ⟨7, by decide⟩) trivial (by decide)
      ⟨by decide, FALLBACK_PRICES.take 7, FALLBACK_PRICES.drop 8, rfl, by decide⟩
  · exact (findFallbackPrice_staged FALLBACK_PRICES "glm-4.5" (some "zhipu")).2.1
      (FALLBACK_PRICES.get ⟨0, by decide⟩) (Or.inr (by decide))
      ⟨by decide, [], FALLBACK_PRICES.drop 1, rfl, by simp⟩

theorem calculateCost_fallback_case (oracle : PriceOracle)
    (table : List FallbackModelPrice) (model : String) (inp out cw cr : ℚ)
    (pid : Option String) (fp : FallbackModelPrice)
    (hblank : isBlankModel model = false)
    (hnone : oracle inp out model (normProvider pid) = none)
    (hfp : findFallbackPrice table model pid = some fp) :
    calculateCost oracle table model inp out cw cr pid =
      calculateFromFallback fp inp out cw cr := by
  simp [calculateCost, hblank, hnone, hfp]

/-- C5 counterexample: an OpenCode message whose source cost is present and
equal to `0` is normalized with cost `0` — the pricing resolver is not
consulted, although it would return a nonzero cost for these tokens. -/
theorem opencode_zero_cost_kept_counterexample :
    (normalizeOpenCodeMessage oracleNone FALLBACK_PRICES dateOfEx ocMsgEx).map
      UnifiedMessage.cost = some (JsNum.fin 0) ∧
    calculateCost oracleNone FALLBACK_PRICES "glm-4.5" 100 50 0 0 none ≠ 0 := by
  constructor
  · rfl
  · rw [calculateCost_fallback_case oracleNone FALLBACK_PRICES "glm-4.5" 100 50 0 0 none
      (FALLBACK_PRICES.get ⟨0, by decide⟩) (by decide) rfl rfl]
    show ¬ calculateFromFallback (FALLBACK_PRICES.get ⟨0, by decide⟩) 100 50 0 0 = 0
    simp only [calculateFromFallback, FALLBACK_PRICES, List.get]
    norm_num

/-- C5 amended: the ccusage normalizer takes the source cost only when it is
strictly positive and otherwise computes it via the pricing resolver, while
the OpenCode normalizer keeps any present source cost — including `0` — and
computes a cost only when the source provides none. -/
theorem cost_selection_amended :
    (∀ (oracle : PriceOracle) (table : List FallbackModelPrice) (dateOf : ℤ → CalDate)
       (message : OCMessage) (tokens : OCTokens),
       message.role = "assistant" → message.tokens = some tokens →
       (∀ c, message.cost = some c →
          (normalizeOpenCodeMessage oracle table dateOf message).map UnifiedMessage.cost =
            some (JsNum.fin c)) ∧
       (message.cost = none →
          (normalizeOpenCodeMessage oracle table dateOf message).map UnifiedMessage.cost =
            some (JsNum.fin (calculateCost oracle table (message.modelID.getD "unknown")
              tokens.input tokens.output ((tokens.cache.map OCCache.write).getD 0)
              ((tokens.cache.map OCCache.read).getD 0) none)))) ∧
    (∀ (oracle : PriceOracle) (table : List FallbackModelPrice) (existingCost : ℚ)
       (model : String) (inp out cw cr : ℚ) (provider : String),
       (0 < existingCost →
         calculateCostOrUseFallback oracle table existingCost model inp out cw cr provider =
           existingCost) ∧
       (¬ 0 < existingCost →
         calculateCostOrUseFallback oracle table existingCost model inp out cw cr provider =
           calculateCost oracle table model inp out cw cr (some provider))) := by
  constructor
  · intro oracle table dateOf message tokens hrole htokens
    constructor
    · intro c hcost
      simp [normalizeOpenCodeMessage, hrole, htokens, hcost]
    · intro hcost
      simp [normalizeOpenCodeMessage, hrole, htokens, hcost]
  · intro oracle table existingCost model inp out cw cr provider
    constructor
    · intro h
      simp [calculateCostOrUseFallback, h]
    · intro h
      simp [calculateCostOrUseFallback, h]

/-- Witness for the amended C5 at concrete inputs: the zero-cost OpenCode
message keeps its `0`, and a positive ccusage cost is kept as is. -/
theorem cost_selection_amended_witness :
    (normalizeOpenCodeMessage oracleNone FALLBACK_PRICES dateOfEx ocMsgEx).map
      UnifiedMessage.cost = some (JsNum.fin 0) ∧
    calculateCostOrUseFallback oracleNone FALLBACK_PRICES 5 "glm-4.5" 1 1 0 0 "zhipu" = 5 := by
  constructor
  · exact ((cost_selection_amended.1 oracleNone FALLBACK_PRICES dateOfEx ocMsgEx
      { input := 100, output := 50 } rfl rfl).1 0 rfl)
  · exact (cost_selection_amended.2 oracleNone FALLBACK_PRICES 5 "glm-4.5" 1 1 0 0
      "zhipu").1 (by norm_num)

/-- C6 counterexample: a schema-valid Codex model entry reporting more
cached input tokens than input tokens yields a canonical record with a
negative `inputTokens` (the adapter subtracts without clamping). -/
theorem codex_negative_input_counterexample :
    (convertCodexDaily tsOfEx dateOfEx codexDailyEx).map UnifiedMessage.inputTokens =
      [JsNum.fin (5 - 10)] ∧ ((5 - 10 : ℚ) < 0) := by
  constructor
  · rfl
  · norm_num

/-- C6 amended: provided every raw Codex model entry carries non-negative
integer token fields with `cachedInputTokens ≤ inputTokens`, every produced
canonical record has non-negative integer token counts in all five
categories. -/
theorem codex_token_counts_amended (tsOf : String → ℤ) (dateOfTs : ℤ → CalDate)
    (dailyEntry : CodexDaily)
    (hvalid : ∀ e ∈ dailyEntry.models,
      (∃ n : ℕ, e.2.inputTokens = (n : ℚ)) ∧
      (∃ n : ℕ, e.2.outputTokens = (n : ℚ)) ∧
      (∃ n : ℕ, e.2.reasoningOutputTokens = (n : ℚ)) ∧
      (∃ n : ℕ, e.2.cachedInputTokens = (n : ℚ)) ∧
      e.2.cachedInputTokens ≤ e.2.inputTokens) :
    ∀ msg ∈ convertCodexDaily tsOf dateOfTs dailyEntry,
      (∃ n : ℕ, msg.inputTokens = JsNum.fin (n : ℚ)) ∧
      (∃ n : ℕ, msg.outputTokens = JsNum.fin (n : ℚ)) ∧
      (∃ n : ℕ, msg.reasoningTokens = JsNum.fin (n : ℚ)) ∧
      (∃ n : ℕ, msg.cacheCreationTokens = JsNum.fin (n : ℚ)) ∧
      (∃ n : ℕ, msg.cacheReadTokens = JsNum.fin (n : ℚ)) := by
  intro msg hmsg
  unfold convertCodexDaily at hmsg
  simp only [List.mem_map] at hmsg
  obtain ⟨ie, hie, rfl⟩ := hmsg
  have hmem : ie.2 ∈ dailyEntry.models := by
    rw [← List.enum_map_snd dailyEntry.models]
    exact List.mem_map_of_mem _ hie
  obtain ⟨⟨ni, hni⟩, ⟨no, hno⟩, ⟨nr, hnr⟩, ⟨nc, hnc⟩, hle⟩ := hvalid ie.2 hmem
  have hle' : nc ≤ ni := by
    rw [hni, hnc] at hle
    exact_mod_cast hle
  refine ⟨⟨ni - nc, ?_⟩, ⟨no, ?_⟩, ⟨nr, ?_⟩, ⟨0, ?_⟩, ⟨nc, ?_⟩⟩
  · show JsNum.fin (ie.2.2.inputTokens - ie.2.2.cachedInputTokens) =
      JsNum.fin ((ni - nc : ℕ) : ℚ)
    rw [hni, hnc, ← Nat.cast_sub hle']
  · show JsNum.fin ie.2.2.outputTokens = JsNum.fin ((no : ℕ) : ℚ)
    rw [hno]
  · show JsNum.fin ie.2.2.reasoningOutputTokens = JsNum.fin ((nr : ℕ) : ℚ)
    rw [hnr]
  · show JsNum.fin 0 = JsNum.fin ((0 : ℕ) : ℚ)
    norm_num
  · show JsNum.fin ie.2.2.cachedInputTokens = JsNum.fin ((nc : ℕ) : ℚ)
    rw [hnc]

/-- Witness for the amended C6 at a concrete well-formed Codex entry. -/
theorem codex_token_counts_amended_witness :
    (∃ n : ℕ, ((convertCodexDaily tsOfEx dateOfEx codexDailyOk).get
        ⟨0, by decide⟩).inputTokens = JsNum.fin (n : ℚ)) ∧
    (∃ n : ℕ, ((convertCodexDaily tsOfEx dateOfEx codexDailyOk).get
        ⟨0, by decide⟩).cacheReadTokens = JsNum.fin (n : ℚ)) := by
  have hvalid : ∀ e ∈ codexDailyOk.models,
      (∃ n : ℕ, e.2.inputTokens = (n : ℚ)) ∧
      (∃ n : ℕ, e.2.outputTokens = (n : ℚ)) ∧
      (∃ n : ℕ, e.2.reasoningOutputTokens = (n : ℚ)) ∧
      (∃ n : ℕ, e.2.cachedInputTokens = (n : ℚ)) ∧
      e.2.cachedInputTokens ≤ e.2.inputTokens := by
    intro e he
    simp only [codexDailyOk, List.mem_singleton] at he
    subst he
    exact ⟨⟨10, by norm_num⟩, ⟨3, by norm_num⟩, ⟨2, by norm_num⟩, ⟨4, by norm_num⟩,
      by norm_num⟩
  have h := codex_token_counts_amended tsOfEx dateOfEx codexDailyOk hvalid
    ((convertCodexDaily tsOfEx dateOfEx codexDailyOk).get ⟨0, by decide⟩)
    (List.get_mem _ _ _)
  exact ⟨h.1, h.2.2.2.2⟩

theorem recalc_foldl_force (oracle : PriceOracle) (table : List FallbackModelPrice) :
    ∀ (rows : List CostRow) (acc : List CostRow × ℕ),
      rows.foldl (recalcStep oracle table true) acc =
        (acc.1 ++ rows.map (fun r =>
          { r with cost := (calculateCost oracle table r.model
              r.input_tokens r.output_tokens r.cache_creation_tokens
              r.cache_read_tokens (some r.provider)) }),
         acc.2 + rows.length) := by
  intro rows
  induction rows with
  | nil => intro acc; simp
  | cons r t ih =>
    intro acc
    rw [List.foldl_cons, ih]
    simp [recalcStep]
    omega

theorem recalc_foldl_noforce (oracle : PriceOracle) (table : List FallbackModelPrice) :
    ∀ (rows : List CostRow) (acc : List CostRow × ℕ),
      (∀ r ∈ rows, 0 ≤ r.cost) →
      rows.foldl (recalcStep oracle table false) acc =
        (acc.1 ++ rows.map (fun r =>
          if r.cost = 0 then
            { r with cost := (calculateCost oracle table r.model
                r.input_tokens r.output_tokens r.cache_creation_tokens
                r.cache_read_tokens (some r.provider)) }
          else r),
         acc.2 + (rows.filter (fun r => decide (r.cost = 0))).length) := by
  intro rows
  induction rows with
  | nil => intro acc _; simp
  | cons r t ih =>
    intro acc hpos
    rw [List.foldl_cons, ih _ (fun x hx => hpos x (List.mem_cons_of_mem _ hx))]
    have hr := hpos r (List.mem_cons_self r t)
    by_cases hz : r.cost = 0
    · have : ¬ (false = false ∧ 0 < r.cost) := by
        rintro ⟨_, hlt⟩
        rw [hz] at hlt
        exact lt_irrefl 0 hlt
      simp [recalcStep, this, hz, List.filter_cons]
      omega
    · have hlt : 0 < r.cost := lt_of_le_of_ne hr (fun he => hz he.symm)
      simp [recalcStep, hlt, hz, List.filter_cons]

/-- C8: with force mode on, the recalculation pass recomputes and persists
every record's cost and returns the full record count; with force mode off
(and the data-model invariant that stored costs are non-negative) it
recomputes exactly the records whose stored cost is `0` and returns the
number of records it wrote. -/
theorem recalculateCosts_spec (oracle : PriceOracle) (table : List FallbackModelPrice)
    (rows : List CostRow) :
    recalculateCosts oracle table rows true =
      (rows.map (fun r =>
        { r with cost := (calculateCost oracle table r.model
            r.input_tokens r.output_tokens r.cache_creation_tokens
            r.cache_read_tokens (some r.provider)) }),
       rows.length) ∧
    ((∀ r ∈ rows, 0 ≤ r.cost) →
      recalculateCosts oracle table rows false =
        (rows.map (fun r =>
          if r.cost = 0 then
            { r with cost := (calculateCost oracle table r.model
                r.input_tokens r.output_tokens r.cache_creation_tokens
                r.cache_read_tokens (some r.provider)) }
          else r),
         (rows.filter (fun r => decide (r.cost = 0))).length)) := by
  constructor
  · rw [recalculateCosts, recalc_foldl_force]
    simp
  · intro hpos
    rw [recalculateCosts, recalc_foldl_noforce oracle table rows ([], 0) hpos]
    simp

/-- Witness for C8: over one zero-cost and one paid record, the default pass
writes exactly one record and the force pass writes both. -/
theorem recalculateCosts_spec_witness :
    (recalculateCosts oracleNone [] [costRowZero, costRowPaid] false).2 = 1 ∧
    (recalculateCosts oracleNone [] [costRowZero, costRowPaid] true).2 = 2 := by
  have h := recalculateCosts_spec oracleNone [] [costRowZero, costRowPaid]
  constructor
  · rw [h.2 ?_]
    · simp [costRowZero, costRowPaid, List.filter]
    · intro r hr
      rcases List.mem_cons.mp hr with h1 | h1
      · rw [h1]; norm_num [costRowZero]
      · rw [List.mem_singleton.mp h1]; norm_num [costRowPaid]
  · rw [h.1]
    rfl

theorem finite_guard_eq_fin_toRat (x : JsNum) :
    (if x.isFinite then x else .fin 0) = JsNum.fin x.toRat := by
  rcases x <;> rfl

theorem sum_fin_map {α : Type} (f : α → ℚ) (l : List α) :
    (l.map (fun a => JsNum.fin (f a))).sum = JsNum.fin ((l.map f).sum) := by
  induction l with
  | nil => rfl
  | cons a t ih => simp [ih, JsNum.fin_add_fin]

theorem accum_foldl_fields (msgs : List UnifiedMessage) :
    ∀ row : AggregatedUsageRow,
      (msgs.foldl accumulateMessage row).name = row.name ∧
      (msgs.foldl accumulateMessage row).messageCount = row.messageCount + msgs.length ∧
      (msgs.foldl accumulateMessage row).inputTokens =
        row.inputTokens + JsNum.fin ((msgs.map (fun m => m.inputTokens.toRat)).sum) ∧
      (msgs.foldl accumulateMessage row).outputTokens =
        row.outputTokens + JsNum.fin ((msgs.map (fun m => m.outputTokens.toRat)).sum) ∧
      (msgs.foldl accumulateMessage row).cacheCreationTokens =
        row.cacheCreationTokens +
          JsNum.fin ((msgs.map (fun m => m.cacheCreationTokens.toRat)).sum) ∧
      (msgs.foldl accumulateMessage row).cacheReadTokens =
        row.cacheReadTokens + JsNum.fin ((msgs.map (fun m => m.cacheReadTokens.toRat)).sum) ∧
      (msgs.foldl accumulateMessage row).totalCost =
        row.totalCost + JsNum.fin ((msgs.map (fun m => m.cost.toRat)).sum) ∧
      (msgs.foldl accumulateMessage row).activeDays = row.activeDays ∧
      (msgs.foldl accumulateMessage row).totalTokens = row.totalTokens := by
  induction msgs with
  | nil =>
    intro row
    refine ⟨rfl, by simp, ?_, ?_, ?_, ?_, ?_, rfl, rfl⟩ <;>
      exact (jsAdd_zero _).symm
  | cons m t ih =>
    intro row
    have h := ih (accumulateMessage row m)
    simp only [List.foldl_cons] at *
    refine ⟨h.1, ?_, ?_, ?_, ?_, ?_, ?_, h.2.2.2.2.2.2.2⟩
    · rw [h.2.1]
      simp [accumulateMessage]
      omega
    · rw [h.2.2.1]
      simp only [accumulateMessage, finite_guard_eq_fin_toRat, List.map_cons, List.sum_cons]
      rw [add_assoc, JsNum.fin_add_fin]
    · rw [h.2.2.2.1]
      simp only [accumulateMessage, finite_guard_eq_fin_toRat, List.map_cons, List.sum_cons]
      rw [add_assoc, JsNum.fin_add_fin]
    · rw [h.2.2.2.2.1]
      simp only [accumulateMessage, finite_guard_eq_fin_toRat, List.map_cons, List.sum_cons]
      rw [add_assoc, JsNum.fin_add_fin]
    · rw [h.2.2.2.2.2.1]
      simp only [accumulateMessage, finite_guard_eq_fin_toRat, List.map_cons, List.sum_cons]
      rw [add_assoc, JsNum.fin_add_fin]
    · rw [h.2.2.2.2.2.2.1]
      simp only [accumulateMessage, finite_guard_eq_fin_toRat, List.map_cons, List.sum_cons]
      rw [add_assoc, JsNum.fin_add_fin]

/-- C10: accumulating a message into a row always increments `messageCount`
by one while a non-finite (NaN/Infinity) token count or cost contributes
nothing to the corresponding sum; consequently a row accumulated from any
message list has all five sums equal to finite rationals (the sums of the
finite contributions, with `0` for each non-finite field). -/
theorem accumulateMessage_nonfinite_safe :
    (∀ (row : AggregatedUsageRow) (message : UnifiedMessage),
      (accumulateMessage row message).messageCount = row.messageCount + 1 ∧
      (message.inputTokens.isFinite = false →
        (accumulateMessage row message).inputTokens = row.inputTokens) ∧
      (message.outputTokens.isFinite = false →
        (accumulateMessage row message).outputTokens = row.outputTokens) ∧
      (message.cacheCreationTokens.isFinite = false →
        (accumulateMessage row message).cacheCreationTokens = row.cacheCreationTokens) ∧
      (message.cacheReadTokens.isFinite = false →
        (accumulateMessage row message).cacheReadTokens = row.cacheReadTokens) ∧
      (message.cost.isFinite = false →
        (accumulateMessage row message).totalCost = row.totalCost)) ∧
    (∀ (msgs : List UnifiedMessage) (n : String),
      (msgs.foldl accumulateMessage (createEmptyRow n)).messageCount = msgs.length ∧
      (msgs.foldl accumulateMessage (createEmptyRow n)).inputTokens =
        JsNum.fin ((msgs.map (fun m => m.inputTokens.toRat)).sum) ∧
      (msgs.foldl accumulateMessage (createEmptyRow n)).outputTokens =
        JsNum.fin ((msgs.map (fun m => m.outputTokens.toRat)).sum) ∧
      (msgs.foldl accumulateMessage (createEmptyRow n)).cacheCreationTokens =
        JsNum.fin ((msgs.map (fun m => m.cacheCreationTokens.toRat)).sum) ∧
      (msgs.foldl accumulateMessage (createEmptyRow n)).cacheReadTokens =
        JsNum.fin ((msgs.map (fun m => m.cacheReadTokens.toRat)).sum) ∧
      (msgs.foldl accumulateMessage (createEmptyRow n)).totalCost =
        JsNum.fin ((msgs.map (fun m => m.cost.toRat)).sum) ∧
      (msgs.foldl accumulateMessage (createEmptyRow n)).inputTokens.isFinite = true ∧
      (msgs.foldl accumulateMessage (createEmptyRow n)).totalCost.isFinite = true) := by
  constructor
  · intro row message
    refine ⟨rfl, ?_, ?_, ?_, ?_, ?_⟩ <;>
      (intro h; simp only [accumulateMessage, h, Bool.false_eq_true, if_false]) <;>
      exact jsAdd_zero _
  · intro msgs n
    have h := accum_foldl_fields msgs (createEmptyRow n)
    have hcnt := h.2.1
    have hin := h.2.2.1
    have hout := h.2.2.2.1
    have hcc := h.2.2.2.2.1
    have hcr := h.2.2.2.2.2.1
    have hcost := h.2.2.2.2.2.2.1
    refine ⟨?_, ?_, ?_, ?_, ?_, ?_, ?_, ?_⟩
    · rw [hcnt]; exact Nat.zero_add _
    · rw [hin]; exact zero_jsAdd _
    · rw [hout]; exact zero_jsAdd _
    · rw [hcc]; exact zero_jsAdd _
    · rw [hcr]; exact zero_jsAdd _
    · rw [hcost]; exact zero_jsAdd _
    · rw [hin]; rfl
    · rw [hcost]; rfl

/-- Witness for C10: a record with an `Infinity` input-token count and a
`NaN` cost still counts as one message, contributes nothing to the sums, and
leaves the accumulated row finite. -/
theorem accumulateMessage_nonfinite_safe_witness :
    (accumulateMessage (createEmptyRow "codex") msgNaN).messageCount =
      (createEmptyRow "codex").messageCount + 1 ∧
    (accumulateMessage (createEmptyRow "codex") msgNaN).inputTokens =
      (createEmptyRow "codex").inputTokens ∧
    (accumulateMessage (createEmptyRow "codex") msgNaN).totalCost =
      (createEmptyRow "codex").totalCost ∧
    ([msgNaN].foldl accumulateMessage (createEmptyRow "codex")).totalCost.isFinite = true := by
  have h1 := accumulateMessage_nonfinite_safe.1 (createEmptyRow "codex") msgNaN
  have h2 := accumulateMessage_nonfinite_safe.2 [msgNaN] "codex"
  exact ⟨h1.1, h1.2.1 rfl, h1.2.2.2.2.2 rfl, h2.2.2.2.2.2.2.2⟩

theorem summaryStep_providerMap (st : SummaryState) (m : UnifiedMessage) :
    (summaryStep st m).providerMap =
      mapSet st.providerMap (getCanonicalProviderName m.provider)
        (accumulateMessage
          ((mapGet st.providerMap (getCanonicalProviderName m.provider)).getD
            (createEmptyRow (getCanonicalProviderName m.provider))) m) := rfl

theorem providerMap_fold_get (msgs : List UnifiedMessage) (n : String) :
    mapGet ((msgs.foldl summaryStep ⟨[], [], [], []⟩).providerMap) n =
      (if (msgs.filter (fun m => getCanonicalProviderName m.provider == n)).isEmpty then none
       else some ((msgs.filter (fun m => getCanonicalProviderName m.provider == n)).foldl
         accumulateMessage (createEmptyRow n))) := by
  induction msgs using List.reverseRecOn with
  | nil => simp [mapGet, List.filter]
  | append_singleton ms m ih =>
    rw [List.foldl_append, List.foldl_cons, List.foldl_nil, List.filter_append,
      summaryStep_providerMap]
    by_cases hn : getCanonicalProviderName m.provider = n
    · rw [hn, mapGet_mapSet_self, ih]
      have hf : List.filter (fun m => getCanonicalProviderName m.provider == n) [m] = [m] := by
        simp [List.filter, hn]
      rw [hf]
      by_cases he : (ms.filter (fun m => getCanonicalProviderName m.provider == n)).isEmpty
      · have he' : ms.filter (fun m => getCanonicalProviderName m.provider == n) = [] :=
          List.isEmpty_iff.mp he
        rw [if_pos he, he']
        simp
      · have he2 : ((ms.filter (fun m => getCanonicalProviderName m.provider == n))
            ++ [m]).isEmpty = false := by
          cases ms.filter (fun m => getCanonicalProviderName m.provider == n) <;> rfl
        rw [if_neg he, he2]
        simp only [Bool.false_eq_true, if_false, Option.getD_some, List.foldl_append,
          List.foldl_cons, List.foldl_nil]
    · have hne : ¬ getCanonicalProviderName m.provider = n := hn
      rw [mapGet_mapSet_ne _ _ _ _ hne, ih]
      have hb : (getCanonicalProviderName m.provider == n) = false :=
        beq_eq_false_iff_ne.mpr hn
      have hf : List.filter (fun m => getCanonicalProviderName m.provider == n) [m] = [] := by
        simp [List.filter, hb]
      rw [hf, List.append_nil]

theorem namesMatch_mapSet (l : List (String × AggregatedUsageRow)) (k : String)
    (v : AggregatedUsageRow) (hv : v.name = k)
    (hl : ∀ p ∈ l, (p.2).name = p.1) :
    ∀ p ∈ mapSet l k v, (p.2).name = p.1 := by
  induction l with
  | nil =>
    intro p hp
    simp [mapSet] at hp
    rw [hp]
    exact hv
  | cons hd t ih =>
    obtain ⟨k0, v0⟩ := hd
    intro p hp
    by_cases hk : k0 = k
    · rw [mapSet, if_pos hk] at hp
      rcases List.mem_cons.mp hp with h | h
      · rw [h]; exact hv
      · exact hl p (List.mem_cons_of_mem _ h)
    · rw [mapSet, if_neg hk] at hp
      rcases List.mem_cons.mp hp with h | h
      · rw [h]; exact hl (k0, v0) (List.mem_cons_self _ _)
      · exact ih (fun q hq => hl q (List.mem_cons_of_mem _ hq)) p h

theorem providerMap_fold_invariants (msgs : List UnifiedMessage) :
    (((msgs.foldl summaryStep ⟨[], [], [], []⟩).providerMap.map Prod.fst).Nodup) ∧
    (∀ p ∈ (msgs.foldl summaryStep ⟨[], [], [], []⟩).providerMap, (p.2).name = p.1) := by
  induction msgs using List.reverseRecOn with
  | nil => exact ⟨List.nodup_nil, by intro p hp; simp at hp⟩
  | append_singleton ms m ih =>
    rw [List.foldl_append, List.foldl_cons, List.foldl_nil, summaryStep_providerMap]
    constructor
    · exact mapSet_keys_nodup _ _ _ ih.1
    · refine namesMatch_mapSet _ _ _ ?_ ih.2
      rcases hg : mapGet (List.foldl summaryStep ⟨[], [], [], []⟩ ms).providerMap
          (getCanonicalProviderName m.provider) with _ | row
      · rfl
      · exact ih.2 _ (mapGet_mem hg)

theorem applyActiveDays_get (tr : List (String × List CalDate)) :
    ∀ (rm : List (String × AggregatedUsageRow)) (k : String),
      (mapGet (applyActiveDays rm tr) k = none ∧ mapGet rm k = none) ∨
      (∃ row a, mapGet rm k = some row ∧
        mapGet (applyActiveDays rm tr) k = some { row with activeDays := a }) := by
  induction tr with
  | nil =>
    intro rm k
    rcases hg : mapGet rm k with _ | row
    · exact Or.inl ⟨hg, rfl⟩
    · exact Or.inr ⟨row, row.activeDays, rfl, hg⟩
  | cons e tr ih =>
    intro rm k
    have hstep : applyActiveDays rm (e :: tr) =
        applyActiveDays
          (match mapGet rm e.1 with
           | some row => mapSet rm e.1 { row with activeDays := e.2.length }
           | none => rm) tr := rfl
    rw [hstep]
    rcases hg0 : mapGet rm e.1 with _ | row0
    · simp only [hg0]
      exact ih rm k
    · simp only [hg0]
      by_cases hk : e.1 = k
    -- the updated key
      · subst hk
        rcases ih (mapSet rm e.1 { row0 with activeDays := e.2.length }) e.1 with
          ⟨h1, h2⟩ | ⟨row', a, h1, h2⟩
        · rw [mapGet_mapSet_self] at h2
          cases h2
        · rw [mapGet_mapSet_self] at h1
          injection h1 with h1
          refine Or.inr ⟨row0, a, hg0, ?_⟩
          rw [h2, ← h1]
      · rcases ih (mapSet rm e.1 { row0 with activeDays := e.2.length }) k with
          ⟨h1, h2⟩ | ⟨row', a, h1, h2⟩
        · rw [mapGet_mapSet_ne _ _ _ _ hk] at h2
          exact Or.inl ⟨h1, h2⟩
        · rw [mapGet_mapSet_ne _ _ _ _ hk] at h1
          exact Or.inr ⟨row', a, h1, h2⟩

theorem applyActiveDays_invariants (tr : List (String × List CalDate)) :
    ∀ rm : List (String × AggregatedUsageRow),
      ((rm.map Prod.fst).Nodup) → (∀ p ∈ rm, (p.2).name = p.1) →
      (((applyActiveDays rm tr).map Prod.fst).Nodup ∧
       ∀ p ∈ applyActiveDays rm tr, (p.2).name = p.1) := by
  induction tr with
  | nil => intro rm h1 h2; exact ⟨h1, h2⟩
  | cons e tr ih =>
    intro rm h1 h2
    have hstep : applyActiveDays rm (e :: tr) =
        applyActiveDays
          (match mapGet rm e.1 with
           | some row => mapSet rm e.1 { row with activeDays := e.2.length }
           | none => rm) tr := rfl
    rw [hstep]
    rcases hg : mapGet rm e.1 with _ | row
    · simp only [hg]
      exact ih rm h1 h2
    · simp only [hg]
      refine ih _ (mapSet_keys_nodup _ _ _ h1) (namesMatch_mapSet _ _ _ ?_ h2)
      exact h2 _ (mapGet_mem hg)

theorem rows_filter_name_count (n : String) :
    ∀ (l : List (String × AggregatedUsageRow)),
      ((l.map Prod.fst).Nodup) → (∀ p ∈ l, (p.2).name = p.1) →
      (((l.map Prod.snd).map finalizeRow).filter (fun r => r.name == n)).length =
        if n ∈ l.map Prod.fst then 1 else 0 := by
  intro l
  induction l with
  | nil => intro _ _; simp
  | cons hd t ih =>
    obtain ⟨k, v⟩ := hd
    intro hnd hnm
    simp only [List.map_cons, List.nodup_cons] at hnd
    have hname : (finalizeRow v).name = k := hnm (k, v) (List.mem_cons_self _ _)
    by_cases hk : k = n
    · subst hk
      have hnot : k ∉ t.map Prod.fst := hnd.1
      have ht := ih hnd.2 (fun p hp => hnm p (List.mem_cons_of_mem _ hp))
      rw [if_neg hnot] at ht
      simp only [List.map_cons, List.filter_cons, hname, beq_self_eq_true, if_pos,
        List.length_cons, ht]
      simp
    · have hb : ((finalizeRow v).name == n) = false := by
        rw [hname]
        exact beq_eq_false_iff_ne.mpr hk
      have ht := ih hnd.2 (fun p hp => hnm p (List.mem_cons_of_mem _ hp))
      simp only [List.map_cons, List.filter_cons, hb, Bool.false_eq_true, if_false, ht]
      by_cases hm : n ∈ t.map Prod.fst
      · rw [if_pos hm, if_pos (List.mem_cons_of_mem _ hm)]
      · rw [if_neg hm, if_neg ?_]
        intro hc
        rcases List.mem_cons.mp hc with h | h
        · exact hk h.symm
        · exact hm h

theorem mapToSortedRows_filter_count (l : List (String × AggregatedUsageRow))
    (hnd : (l.map Prod.fst).Nodup) (hnm : ∀ p ∈ l, (p.2).name = p.1) (n : String) :
    (((mapToSortedRows l).filter (fun r => r.name == n)).length) =
      if n ∈ l.map Prod.fst then 1 else 0 := by
  unfold mapToSortedRows
  rw [((List.perm_insertionSort rowCmpKeeps _).filter _).length_eq]
  exact rows_filter_name_count n l hnd hnm

theorem mapToSortedRows_mem_name (l : List (String × AggregatedUsageRow))
    (hnd : (l.map Prod.fst).Nodup) (hnm : ∀ p ∈ l, (p.2).name = p.1)
    {row : AggregatedUsageRow} (hmem : row ∈ mapToSortedRows l) :
    ∃ v, mapGet l row.name = some v ∧ row = finalizeRow v := by
  unfold mapToSortedRows at hmem
  rw [List.mem_insertionSort] at hmem
  rw [List.mem_map] at hmem
  obtain ⟨v, hv, rfl⟩ := hmem
  rw [List.mem_map] at hv
  obtain ⟨⟨k, v'⟩, hkv, rfl⟩ := hv
  have hk : v'.name = k := hnm _ hkv
  have hfk : (finalizeRow v').name = k := hk
  rw [hfk]
  exact ⟨v', mem_mapGet hnd hkv, rfl⟩

/-- C9: provider rows of `computeUsageSummary` are grouped by the
post-alias-resolution provider name (alias lookup on the lowercased raw
name): there is exactly one row per canonical name that occurs, and that
row's message count and cost accumulate every record whose canonical
provider name matches — records tagged `openai` therefore merge into the
same row as records tagged `codex`. -/
theorem computeUsageSummary_provider_alias_grouping
    (messages : List UnifiedMessage) (dailyUsage : List DailyUsage) (n : String) :
    (((computeUsageSummary messages dailyUsage).providerRows.filter
        (fun r => r.name == n)).length =
      if (messages.filter (fun m => getCanonicalProviderName m.provider == n)).isEmpty
      then 0 else 1) ∧
    (∀ row ∈ (computeUsageSummary messages dailyUsage).providerRows, row.name = n →
      row.messageCount =
        (messages.filter (fun m => getCanonicalProviderName m.provider == n)).length ∧
      row.totalCost = JsNum.fin (((messages.filter
        (fun m => getCanonicalProviderName m.provider == n)).map
          (fun m => m.cost.toRat)).sum)) := by
  have hrows : (computeUsageSummary messages dailyUsage).providerRows =
      mapToSortedRows (applyActiveDays
        (messages.foldl summaryStep ⟨[], [], [], []⟩).providerMap
        (messages.foldl summaryStep ⟨[], [], [], []⟩).providerDayTracker) := rfl
  have hinv := providerMap_fold_invariants messages
  have hinv2 := applyActiveDays_invariants
    (messages.foldl summaryStep ⟨[], [], [], []⟩).providerDayTracker
    (messages.foldl summaryStep ⟨[], [], [], []⟩).providerMap hinv.1 hinv.2
  have hget := providerMap_fold_get messages n
  have hshape := applyActiveDays_get
    (messages.foldl summaryStep ⟨[], [], [], []⟩).providerDayTracker
    (messages.foldl summaryStep ⟨[], [], [], []⟩).providerMap n
  constructor
  · rw [hrows, mapToSortedRows_filter_count _ hinv2.1 hinv2.2 n]
    by_cases hemp :
        (messages.filter (fun m => getCanonicalProviderName m.provider == n)).isEmpty
    · rw [if_pos hemp, if_neg ?_]
      intro hcmem
      have hne : ¬ mapGet (applyActiveDays
          (messages.foldl summaryStep ⟨[], [], [], []⟩).providerMap
          (messages.foldl summaryStep ⟨[], [], [], []⟩).providerDayTracker) n = none := by
        rw [mapGet_eq_none]
        exact fun hc => hc hcmem
      rcases hshape with ⟨h1, _⟩ | ⟨row0, a, h1, _⟩
      · exact hne h1
      · rw [hget, if_pos hemp] at h1
        cases h1
    · rw [if_neg hemp, if_pos ?_]
      rcases hshape with ⟨_, h2⟩ | ⟨row0, a, h1, h2⟩
      · rw [hget, if_neg hemp] at h2
        cases h2
      · by_contra hc
        rw [← mapGet_eq_none] at hc
        rw [h2] at hc
        cases hc
  · intro row hrow hname
    rw [hrows] at hrow
    obtain ⟨v, hv, hfin⟩ := mapToSortedRows_mem_name _ hinv2.1 hinv2.2 hrow
    rw [hname] at hv
    rcases hshape with ⟨h1, _⟩ | ⟨row0, a, h1, h2⟩
    · rw [h1] at hv
      cases hv
    · rw [h2] at hv
      injection hv with hv
      rw [hget] at h1
      by_cases hemp :
          (messages.filter (fun m => getCanonicalProviderName m.provider == n)).isEmpty
      · rw [if_pos hemp] at h1
        cases h1
      · rw [if_neg hemp] at h1
        injection h1 with h1
        have hfields := accum_foldl_fields
          (messages.filter (fun m => getCanonicalProviderName m.provider == n))
          (createEmptyRow n)
        have hmc : row.messageCount = row0.messageCount := by
          rw [hfin, ← hv]
          rfl
        have htc : row.totalCost = row0.totalCost := by
          rw [hfin, ← hv]
          rfl
        constructor
        · rw [hmc, ← h1, hfields.2.1]
          exact Nat.zero_add _
        · rw [htc, ← h1, hfields.2.2.2.2.2.2.1]
          exact zero_jsAdd _

/-- Witness for C9: one record tagged `openai` and one tagged `codex` merge
into a single `codex` provider row counting both messages. -/
theorem computeUsageSummary_provider_alias_grouping_witness :
    (((computeUsageSummary [msgOpenAI, msgCodex] []).providerRows.filter
        (fun r => r.name == "codex")).length = 1) ∧
    (∀ row ∈ (computeUsageSummary [msgOpenAI, msgCodex] []).providerRows,
      row.name = "codex" → row.messageCount = 2) := by
  have h := computeUsageSummary_provider_alias_grouping [msgOpenAI, msgCodex] [] "codex"
  constructor
  · rw [h.1]
    rfl
  · intro row hrow hname
    rw [(h.2 row hrow hname).1]
    rfl

theorem sum_mapSet_upd {κ β : Type} [DecidableEq κ] (f : β → JsNum) (δ : JsNum)
    (dflt : β) (hdflt : f dflt = 0) (upd : β → β)
    (hupd : ∀ b, f (upd b) = f b + δ) :
    ∀ (l : List (κ × β)) (k : κ),
      ((mapSet l k (upd ((mapGet l k).getD dflt))).map (fun p => f p.2)).sum =
        ((l.map (fun p => f p.2)).sum) + δ := by
  intro l
  induction l with
  | nil =>
    intro k
    simp only [mapGet, Option.getD_none, mapSet, List.map_cons, List.map_nil,
      List.sum_cons, List.sum_nil, hupd, hdflt]
    simp
  | cons hd t ih =>
    obtain ⟨k0, v0⟩ := hd
    intro k
    by_cases hk : k0 = k
    · subst hk
      simp only [mapGet, mapSet, eq_self_iff_true, if_true, Option.getD_some,
        List.map_cons, List.sum_cons, hupd]
      rw [add_right_comm]
    · simp only [mapGet, if_neg hk, mapSet, List.map_cons, List.sum_cons, ih]
      rw [add_assoc]

theorem aggStep_sum (fb : ModelBreakdown → JsNum) (fm : UnifiedMessage → JsNum)
    (hadd : ∀ b m, fb (breakdownAddMessage b m) = fb b + fm m)
    (hempty : ∀ s, fb (createEmptyModelBreakdown s) = 0)
    (dm : List (CalDate × List (String × ModelBreakdown))) (msg : UnifiedMessage) :
    ((aggStep dm msg).map (fun e => ((e.2.map (fun p => fb p.2)).sum))).sum =
      ((dm.map (fun e => ((e.2.map (fun p => fb p.2)).sum))).sum) + fm msg := by
  exact sum_mapSet_upd (fun mm => (mm.map (fun p => fb p.2)).sum) (fm msg) [] rfl
    (fun mm => mapSet mm msg.model
      (breakdownAddMessage
        ((mapGet mm msg.model).getD (createEmptyModelBreakdown msg.model)) msg))
    (fun mm => sum_mapSet_upd fb (fm msg) (createEmptyModelBreakdown msg.model)
      (hempty _) (fun b => breakdownAddMessage b msg) (fun b => hadd b msg) mm msg.model)
    dm msg.date

theorem agg_fold_sum (fb : ModelBreakdown → JsNum) (fm : UnifiedMessage → JsNum)
    (hadd : ∀ b m, fb (breakdownAddMessage b m) = fb b + fm m)
    (hempty : ∀ s, fb (createEmptyModelBreakdown s) = 0)
    (msgs : List UnifiedMessage) :
    ∀ dm : List (CalDate × List (String × ModelBreakdown)),
      (((msgs.foldl aggStep dm).map (fun e => ((e.2.map (fun p => fb p.2)).sum))).sum) =
        ((dm.map (fun e => ((e.2.map (fun p => fb p.2)).sum))).sum) + (msgs.map fm).sum := by
  induction msgs with
  | nil =>
    intro dm
    simp
  | cons m t ih =>
    intro dm
    rw [List.foldl_cons, ih, aggStep_sum fb fm hadd hempty, List.map_cons, List.sum_cons]
    abel

theorem dailyAccum_foldl (bs : List ModelBreakdown) :
    ∀ acc : DailyUsage,
      (bs.foldl dailyAccum acc).inputTokens =
        acc.inputTokens + (bs.map (fun b => b.inputTokens)).sum ∧
      (bs.foldl dailyAccum acc).outputTokens =
        acc.outputTokens + (bs.map (fun b => b.outputTokens)).sum ∧
      (bs.foldl dailyAccum acc).cacheCreationTokens =
        acc.cacheCreationTokens + (bs.map (fun b => b.cacheCreationTokens)).sum ∧
      (bs.foldl dailyAccum acc).cacheReadTokens =
        acc.cacheReadTokens + (bs.map (fun b => b.cacheReadTokens)).sum ∧
      (bs.foldl dailyAccum acc).totalCost =
        acc.totalCost + (bs.map (fun b => b.cost)).sum ∧
      (bs.foldl dailyAccum acc).modelBreakdowns = acc.modelBreakdowns ∧
      (bs.foldl dailyAccum acc).date = acc.date ∧
      (bs.foldl dailyAccum acc).modelsUsed =
        acc.modelsUsed ++ bs.map (fun b => b.modelName) := by
  induction bs with
  | nil =>
    intro acc
    refine ⟨?_, ?_, ?_, ?_, ?_, rfl, rfl, by simp⟩ <;> exact (jsAdd_zero _).symm
  | cons b t ih =>
    intro acc
    have h := ih (dailyAccum acc b)
    simp only [List.foldl_cons] at *
    refine ⟨?_, ?_, ?_, ?_, ?_, h.2.2.2.2.2.1, h.2.2.2.2.2.2.1, ?_⟩
    · rw [h.1]
      show acc.inputTokens + b.inputTokens + _ = _
      rw [List.map_cons, List.sum_cons, add_assoc]
    · rw [h.2.1]
      show acc.outputTokens + b.outputTokens + _ = _
      rw [List.map_cons, List.sum_cons, add_assoc]
    · rw [h.2.2.1]
      show acc.cacheCreationTokens + b.cacheCreationTokens + _ = _
      rw [List.map_cons, List.sum_cons, add_assoc]
    · rw [h.2.2.2.1]
      show acc.cacheReadTokens + b.cacheReadTokens + _ = _
      rw [List.map_cons, List.sum_cons, add_assoc]
    · rw [h.2.2.2.2.1]
      show acc.totalCost + b.cost + _ = _
      rw [List.map_cons, List.sum_cons, add_assoc]
    · rw [h.2.2.2.2.2.2.2]
      show acc.modelsUsed ++ [b.modelName] ++ _ = _
      rw [List.map_cons, List.append_assoc, List.singleton_append]

theorem buildDailyUsage_fields (date : CalDate) (bs : List ModelBreakdown) :
    (buildDailyUsage date bs).date = date ∧
    (buildDailyUsage date bs).modelBreakdowns = bs ∧
    (buildDailyUsage date bs).inputTokens = (bs.map (fun b => b.inputTokens)).sum ∧
    (buildDailyUsage date bs).outputTokens = (bs.map (fun b => b.outputTokens)).sum ∧
    (buildDailyUsage date bs).cacheCreationTokens =
      (bs.map (fun b => b.cacheCreationTokens)).sum ∧
    (buildDailyUsage date bs).cacheReadTokens = (bs.map (fun b => b.cacheReadTokens)).sum ∧
    (buildDailyUsage date bs).totalCost = (bs.map (fun b => b.cost)).sum ∧
    (buildDailyUsage date bs).modelsUsed = bs.map (fun b => b.modelName) ∧
    (buildDailyUsage date bs).totalTokens =
      (buildDailyUsage date bs).inputTokens + (buildDailyUsage date bs).outputTokens +
      (buildDailyUsage date bs).cacheCreationTokens +
      (buildDailyUsage date bs).cacheReadTokens := by
  have h := dailyAccum_foldl bs
    { createEmptyDailyUsage date with modelBreakdowns := bs }
  refine ⟨?_, ?_, ?_, ?_, ?_, ?_, ?_, ?_, rfl⟩
  · exact h.2.2.2.2.2.2.1
  · exact h.2.2.2.2.2.1
  · show (bs.foldl dailyAccum _).inputTokens = _
    rw [h.1]
    exact zero_jsAdd _
  · show (bs.foldl dailyAccum _).outputTokens = _
    rw [h.2.1]
    exact zero_jsAdd _
  · show (bs.foldl dailyAccum _).cacheCreationTokens = _
    rw [h.2.2.1]
    exact zero_jsAdd _
  · show (bs.foldl dailyAccum _).cacheReadTokens = _
    rw [h.2.2.2.1]
    exact zero_jsAdd _
  · show (bs.foldl dailyAccum _).totalCost = _
    rw [h.2.2.2.2.1]
    exact zero_jsAdd _
  · show (bs.foldl dailyAccum _).modelsUsed = _
    rw [h.2.2.2.2.2.2.2]
    exact List.nil_append _

/-- C1: every aggregated day satisfies the internal sum invariants
(`totalCost` is the sum of its breakdown costs, each token category is the
sum of the breakdown categories, `totalTokens` is the sum of the four
category sums), and summing cost or any token category over all produced
days equals summing that field over all input records. -/
theorem aggregateMessagesByDailyUsage_sum_invariant (messages : List UnifiedMessage) :
    (∀ day ∈ aggregateMessagesByDailyUsage messages,
      day.totalCost = (day.modelBreakdowns.map (fun b => b.cost)).sum ∧
      day.inputTokens = (day.modelBreakdowns.map (fun b => b.inputTokens)).sum ∧
      day.outputTokens = (day.modelBreakdowns.map (fun b => b.outputTokens)).sum ∧
      day.cacheCreationTokens =
        (day.modelBreakdowns.map (fun b => b.cacheCreationTokens)).sum ∧
      day.cacheReadTokens = (day.modelBreakdowns.map (fun b => b.cacheReadTokens)).sum ∧
      day.totalTokens =
        day.inputTokens + day.outputTokens +
        day.cacheCreationTokens + day.cacheReadTokens) ∧
    ((aggregateMessagesByDailyUsage messages).map (fun d => d.totalCost)).sum =
      (messages.map (fun m => m.cost)).sum ∧
    ((aggregateMessagesByDailyUsage messages).map (fun d => d.inputTokens)).sum =
      (messages.map (fun m => m.inputTokens)).sum ∧
    ((aggregateMessagesByDailyUsage messages).map (fun d => d.outputTokens)).sum =
      (messages.map (fun m => m.outputTokens)).sum ∧
    ((aggregateMessagesByDailyUsage messages).map (fun d => d.cacheCreationTokens)).sum =
      (messages.map (fun m => m.cacheCreationTokens)).sum ∧
    ((aggregateMessagesByDailyUsage messages).map (fun d => d.cacheReadTokens)).sum =
      (messages.map (fun m => m.cacheReadTokens)).sum := by
  have hperm : (aggregateMessagesByDailyUsage messages).Perm
      ((messages.foldl aggStep []).map
        (fun e => buildDailyUsage e.1 (e.2.map Prod.snd))) := by
    unfold aggregateMessagesByDailyUsage
    exact List.perm_insertionSort _ _
  have hglobal : ∀ (fb : ModelBreakdown → JsNum) (fm : UnifiedMessage → JsNum)
      (fd : DailyUsage → JsNum),
      (∀ b m, fb (breakdownAddMessage b m) = fb b + fm m) →
      (∀ s, fb (createEmptyModelBreakdown s) = 0) →
      (∀ date bs, fd (buildDailyUsage date bs) = (bs.map fb).sum) →
      ((aggregateMessagesByDailyUsage messages).map fd).sum = (messages.map fm).sum := by
    intro fb fm fd hadd hempty hbuild
    rw [(hperm.map fd).sum_eq, List.map_map]
    have hcongr : ((messages.foldl aggStep []).map
        (fd ∘ fun e => buildDailyUsage e.1 (e.2.map Prod.snd))) =
        (messages.foldl aggStep []).map
          (fun e => ((e.2.map (fun p => fb p.2)).sum)) := by
      apply List.map_congr_left
      intro e _
      show fd (buildDailyUsage e.1 (e.2.map Prod.snd)) = _
      rw [hbuild, List.map_map]
      rfl
    rw [hcongr, agg_fold_sum fb fm hadd hempty messages []]
    simp
  constructor
  · intro day hday
    have hmem : day ∈ (messages.foldl aggStep []).map
        (fun e => buildDailyUsage e.1 (e.2.map Prod.snd)) := hperm.mem_iff.mp hday
    rw [List.mem_map] at hmem
    obtain ⟨e, _, rfl⟩ := hmem
    have hf := buildDailyUsage_fields e.1 (e.2.map Prod.snd)
    refine ⟨?_, ?_, ?_, ?_, ?_, hf.2.2.2.2.2.2.2.2⟩
    · rw [hf.2.2.2.2.2.2.1, hf.2.1]
    · rw [hf.2.2.1, hf.2.1]
    · rw [hf.2.2.2.1, hf.2.1]
    · rw [hf.2.2.2.2.1, hf.2.1]
    · rw [hf.2.2.2.2.2.1, hf.2.1]
  · refine ⟨?_, ?_, ?_, ?_, ?_⟩
    · exact hglobal (fun b => b.cost) (fun m => m.cost) (fun d => d.totalCost)
        (fun _ _ => rfl) (fun _ => rfl)
        (fun date bs => (buildDailyUsage_fields date bs).2.2.2.2.2.2.1)
    · exact hglobal (fun b => b.inputTokens) (fun m => m.inputTokens)
        (fun d => d.inputTokens) (fun _ _ => rfl) (fun _ => rfl)
        (fun date bs => (buildDailyUsage_fields date bs).2.2.1)
    · exact hglobal (fun b => b.outputTokens) (fun m => m.outputTokens)
        (fun d => d.outputTokens) (fun _ _ => rfl) (fun _ => rfl)
        (fun date bs => (buildDailyUsage_fields date bs).2.2.2.1)
    · exact hglobal (fun b => b.cacheCreationTokens) (fun m => m.cacheCreationTokens)
        (fun d => d.cacheCreationTokens) (fun _ _ => rfl) (fun _ => rfl)
        (fun date bs => (buildDailyUsage_fields date bs).2.2.2.2.1)
    · exact hglobal (fun b => b.cacheReadTokens) (fun m => m.cacheReadTokens)
        (fun d => d.cacheReadTokens) (fun _ _ => rfl) (fun _ => rfl)
        (fun date bs => (buildDailyUsage_fields date bs).2.2.2.2.2.1)

/-- Witness for C1 at two concrete records on two dates. -/
theorem aggregateMessagesByDailyUsage_sum_invariant_witness :
    ((aggregateMessagesByDailyUsage [msgOpenAI, msgCodex]).map (fun d => d.totalCost)).sum =
      ([msgOpenAI, msgCodex].map (fun m => m.cost)).sum ∧
    ((aggregateMessagesByDailyUsage [msgOpenAI, msgCodex]).get ⟨0, by decide⟩).totalCost =
      (((aggregateMessagesByDailyUsage [msgOpenAI, msgCodex]).get
        ⟨0, by decide⟩).modelBreakdowns.map (fun b => b.cost)).sum := by
  have h := aggregateMessagesByDailyUsage_sum_invariant [msgOpenAI, msgCodex]
  exact ⟨h.2.1, (h.1 _ (List.get_mem _ _ _)).1⟩

theorem dateLt_iff_rataDie_lt {a b : CalDate} (ha : ValidDate a) (hb : ValidDate b) :
    dateLt a b = true ↔ rataDie a < rataDie b := by
  constructor
  · exact rataDie_lt_of_dateLt ha hb
  · intro h
    rcases dateLt_trichotomy a b with hlt | heq | hgt
    · exact hlt
    · rw [heq] at h
      exact absurd h (lt_irrefl _)
    · exact absurd (rataDie_lt_of_dateLt hb ha hgt) (by omega)

theorem dateLe_refl (a : CalDate) : dateLe a a = true := by
  unfold dateLe
  simp

theorem dateRange_length (s : CalDate) (n : ℕ) : (dateRange s n).length = n := by
  induction n generalizing s with
  | zero => rfl
  | succ k ih => simp [dateRange, ih]

theorem dateRange_succ_left (s : CalDate) (n : ℕ) :
    dateRange s (n + 1) = s :: dateRange (nextDay s) n := rfl

theorem mem_dateRange_iff (n : ℕ) :
    ∀ (s : CalDate), ValidDate s → ∀ (t : CalDate), ValidDate t →
      (t ∈ dateRange s (n + 1) ↔ rataDie s ≤ rataDie t ∧ rataDie t ≤ rataDie s + n) := by
  induction n with
  | zero =>
    intro s hs t ht
    simp only [dateRange, List.mem_singleton, List.not_mem_nil, or_false]
    constructor
    · intro h
      rw [h]
      omega
    · intro ⟨h1, h2⟩
      exact rataDie_inj ht hs (by omega)
  | succ k ih =>
    intro s hs t ht
    rw [dateRange_succ_left, List.mem_cons,
      ih (nextDay s) (validDate_nextDay hs) t ht, rataDie_nextDay hs]
    constructor
    · rintro (rfl | ⟨h1, h2⟩) <;> omega
    · intro ⟨h1, h2⟩
      rcases Nat.eq_or_lt_of_le h1 with heq | hlt
    -- equal day numbers force equal dates
      · exact Or.inl (rataDie_inj ht hs (by omega))
      · exact Or.inr ⟨by omega, by omega⟩

theorem dateRange_valid (n : ℕ) :
    ∀ s : CalDate, ValidDate s → ∀ t ∈ dateRange s n, ValidDate t := by
  induction n with
  | zero => intro s _ t ht; simp [dateRange] at ht
  | succ k ih =>
    intro s hs t ht
    rw [dateRange_succ_left, List.mem_cons] at ht
    rcases ht with rfl | ht
    · exact hs
    · exact ih (nextDay s) (validDate_nextDay hs) t ht

theorem dateRange_pairwise (n : ℕ) :
    ∀ s : CalDate, ValidDate s →
      List.Pairwise (fun a b => dateLt a b = true) (dateRange s n) := by
  induction n with
  | zero => intro s _; exact List.Pairwise.nil
  | succ k ih =>
    intro s hs
    rw [dateRange_succ_left]
    refine List.Pairwise.cons ?_ (ih (nextDay s) (validDate_nextDay hs))
    intro t ht
    rcases k with _ | k
    · simp [dateRange] at ht
    · have hb := (mem_dateRange_iff k (nextDay s) (validDate_nextDay hs) t
        (dateRange_valid (k + 1) (nextDay s) (validDate_nextDay hs) t ht)).mp ht
      rw [rataDie_nextDay hs] at hb
      exact (dateLt_iff_rataDie_lt hs
        (dateRange_valid (k + 1) (nextDay s) (validDate_nextDay hs) t ht)).mpr (by omega)

theorem buildUsageMap_dates (dailyUsage : List DailyUsage) :
    ∀ p ∈ buildUsageMap dailyUsage, (p.2).date = p.1 := by
  have hgen : ∀ (du : List DailyUsage) (acc : List (CalDate × DailyUsage)),
      (∀ p ∈ acc, (p.2).date = p.1) →
      ∀ p ∈ du.foldl (fun m d => mapSet m d.date d) acc, (p.2).date = p.1 := by
    intro du
    induction du with
    | nil => intro acc hacc; exact hacc
    | cons d t ih =>
      intro acc hacc
      rw [List.foldl_cons]
      refine ih (mapSet acc d.date d) ?_
      intro p hp
      have : ∀ q ∈ mapSet acc d.date d, (q.2).date = q.1 := by
        clear hp p
        induction acc with
        | nil =>
          intro q hq
          simp [mapSet] at hq
          rw [hq]
        | cons a rest ihr =>
          obtain ⟨k0, v0⟩ := a
          intro q hq
          by_cases hk : k0 = d.date
          · rw [mapSet, if_pos hk] at hq
            rcases List.mem_cons.mp hq with h | h
            · rw [h]
            · exact hacc q (List.mem_cons_of_mem _ h)
          · rw [mapSet, if_neg hk] at hq
            rcases List.mem_cons.mp hq with h | h
            · rw [h]
              exact hacc (k0, v0) (List.mem_cons_self _ _)
            · exact ihr (fun r hr => hacc r (List.mem_cons_of_mem _ hr)) q h
      exact this p hp
  exact hgen dailyUsage [] (by intro p hp; simp at hp)

theorem fillGo_stop (um : List (CalDate × DailyUsage)) {e : CalDate}
    (he : ValidDate e) :
    ∀ (c : CalDate) (fuel : ℕ), ValidDate c → rataDie e < rataDie c →
      fillGo um e c fuel = [] := by
  intro c fuel hc hlt
  cases fuel with
  | zero => rfl
  | succ k =>
    rw [fillGo, if_neg]
    intro hle
    have := (dateLe_iff_rataDie_le hc he).mp hle
    omega

theorem fillGo_spec (um : List (CalDate × DailyUsage)) {e : CalDate}
    (he : ValidDate e) :
    ∀ (n : ℕ) (c : CalDate), ValidDate c → rataDie c + n = rataDie e →
      fillGo um e c (n + 1) =
        (dateRange c (n + 1)).map
          (fun dt => (mapGet um dt).getD (createEmptyDailyUsage dt)) := by
  intro n
  induction n with
  | zero =>
    intro c hc hrd
    have hce : c = e := rataDie_inj hc he (by omega)
    subst hce
    rw [fillGo, if_pos (dateLe_refl c)]
    rw [fillGo_stop um hc (nextDay c) 0 (validDate_nextDay hc)
      (by rw [rataDie_nextDay hc]; omega)]
    rcases h : mapGet um c with _ | u <;> simp [h, dateRange]
  | succ k ih =>
    intro c hc hrd
    have hle : dateLe c e = true := (dateLe_iff_rataDie_le hc he).mpr (by omega)
    rw [fillGo, if_pos hle]
    rw [ih (nextDay c) (validDate_nextDay hc) (by rw [rataDie_nextDay hc]; omega)]
    rcases h : mapGet um c with _ | u <;> simp [h, dateRange_succ_left]

theorem mapSet_mem {κ β : Type} [DecidableEq κ] (l : List (κ × β)) (k : κ) (v : β) :
    ∀ q ∈ mapSet l k v, q = (k, v) ∨ q ∈ l := by
  induction l with
  | nil =>
    intro q hq
    simp [mapSet] at hq
    exact Or.inl hq
  | cons hd t ih =>
    obtain ⟨k0, v0⟩ := hd
    intro q hq
    by_cases hk : k0 = k
    · rw [mapSet, if_pos hk] at hq
      rcases List.mem_cons.mp hq with h | h
      · exact Or.inl h
      · exact Or.inr (List.mem_cons_of_mem _ h)
    · rw [mapSet, if_neg hk] at hq
      rcases List.mem_cons.mp hq with h | h
      · exact Or.inr (h ▸ List.mem_cons_self _ _)
      · rcases ih q h with h' | h'
        · exact Or.inl h'
        · exact Or.inr (List.mem_cons_of_mem _ h')

theorem buildUsageMap_mem (dailyUsage : List DailyUsage) :
    ∀ p ∈ buildUsageMap dailyUsage, (p.2) ∈ dailyUsage := by
  have hgen : ∀ (du : List DailyUsage) (acc : List (CalDate × DailyUsage))
      (base : List DailyUsage),
      (∀ p ∈ acc, (p.2) ∈ base) → (∀ d ∈ du, d ∈ base) →
      ∀ p ∈ du.foldl (fun m d => mapSet m d.date d) acc, (p.2) ∈ base := by
    intro du
    induction du with
    | nil => intro acc base hacc _; exact hacc
    | cons d t ih =>
      intro acc base hacc hdu
      rw [List.foldl_cons]
      refine ih (mapSet acc d.date d) base ?_ (fun x hx => hdu x (List.mem_cons_of_mem _ hx))
      intro p hp
      rcases mapSet_mem acc d.date d p hp with h | h
      · rw [h]
        exact hdu d (List.mem_cons_self _ _)
      · exact hacc p h
  exact hgen dailyUsage [] dailyUsage (by intro p hp; simp at hp) (fun d hd => hd)

/-- C3: for valid dates `start ≤ end`, `fillMissingDates` returns the map of
the date-keyed usage lookup over the chain of consecutive calendar dates
from `start` to `end`: exactly `daysBetween + 1` entries, one per calendar
date of the inclusive range, in strictly ascending order with each date
occurring exactly once; a date present in the input reuses the stored entry
(the latest input entry for that date), a missing date gets a zeroed
`DailyUsage`. -/
theorem fillMissingDates_range_complete (dailyUsage : List DailyUsage)
    (s e : CalDate) (hs : ValidDate s) (he : ValidDate e) (hse : dateLe s e = true) :
    fillMissingDates dailyUsage s e =
      (dateRange s (rataDie e - rataDie s + 1)).map
        (fun dt => (mapGet (buildUsageMap dailyUsage) dt).getD
          (createEmptyDailyUsage dt)) ∧
    (fillMissingDates dailyUsage s e).length = (rataDie e - rataDie s) + 1 ∧
    (fillMissingDates dailyUsage s e).map DailyUsage.date =
      dateRange s (rataDie e - rataDie s + 1) ∧
    List.Pairwise (fun a b => dateLt a b = true)
      ((fillMissingDates dailyUsage s e).map DailyUsage.date) ∧
    (∀ t : CalDate, ValidDate t →
      (t ∈ (fillMissingDates dailyUsage s e).map DailyUsage.date ↔
        dateLe s t = true ∧ dateLe t e = true)) ∧
    (∀ t u, mapGet (buildUsageMap dailyUsage) t = some u →
      u ∈ dailyUsage ∧ u.date = t) := by
  have hrd : rataDie s ≤ rataDie e := (dateLe_iff_rataDie_le hs he).mp hse
  have hfuel : rataDie e + 1 - rataDie s = (rataDie e - rataDie s) + 1 := by omega
  have hentry : ∀ dt : CalDate,
      ((mapGet (buildUsageMap dailyUsage) dt).getD (createEmptyDailyUsage dt)).date = dt := by
    intro dt
    rcases h : mapGet (buildUsageMap dailyUsage) dt with _ | u
    · rfl
    · exact buildUsageMap_dates dailyUsage (dt, u) (mapGet_mem h)
  have hmain : fillMissingDates dailyUsage s e =
      (dateRange s (rataDie e - rataDie s + 1)).map
        (fun dt => (mapGet (buildUsageMap dailyUsage) dt).getD
          (createEmptyDailyUsage dt)) := by
    unfold fillMissingDates
    rw [hfuel]
    exact fillGo_spec _ he (rataDie e - rataDie s) s hs (by omega)
  have hdates : (fillMissingDates dailyUsage s e).map DailyUsage.date =
      dateRange s (rataDie e - rataDie s + 1) := by
    rw [hmain, List.map_map]
    have hcg : List.map
        (DailyUsage.date ∘ fun dt => (mapGet (buildUsageMap dailyUsage) dt).getD
          (createEmptyDailyUsage dt))
        (dateRange s (rataDie e - rataDie s + 1)) =
        List.map id (dateRange s (rataDie e - rataDie s + 1)) :=
      List.map_congr_left (fun dt _ => hentry dt)
    rw [hcg, List.map_id]
  refine ⟨hmain, ?_, hdates, ?_, ?_, ?_⟩
  · rw [hmain, List.length_map, dateRange_length]
  · rw [hdates]
    exact dateRange_pairwise _ s hs
  · intro t ht
    rw [hdates, mem_dateRange_iff (rataDie e - rataDie s) s hs t ht]
    constructor
    · intro ⟨h1, h2⟩
      exact ⟨(dateLe_iff_rataDie_le hs ht).mpr h1,
        (dateLe_iff_rataDie_le ht he).mpr (by omega)⟩
    · intro ⟨h1, h2⟩
      have hh1 := (dateLe_iff_rataDie_le hs ht).mp h1
      have hh2 := (dateLe_iff_rataDie_le ht he).mp h2
      exact ⟨hh1, by omega⟩
  · intro t u hu
    exact ⟨buildUsageMap_mem dailyUsage (t, u) (mapGet_mem hu),
      buildUsageMap_dates dailyUsage (t, u) (mapGet_mem hu)⟩

/-- Witness for C3: the inclusive range year-4-02-28 .. year-4-03-01 yields
three entries, whose dates include the leap day of year 4 (February 29). -/
theorem fillMissingDates_range_complete_witness :
    (fillMissingDates [] ⟨4, 2, 28⟩ ⟨4, 3, 1⟩).length = 3 ∧
    (fillMissingDates [] ⟨4, 2, 28⟩ ⟨4, 3, 1⟩).map DailyUsage.date =
      [⟨4, 2, 28⟩, ⟨4, 2, 29⟩, ⟨4, 3, 1⟩] := by
  have h := fillMissingDates_range_complete [] ⟨4, 2, 28⟩ ⟨4, 3, 1⟩
    (by decide) (by decide) (by decide)
  constructor
  · rw [h.2.1]
    decide
  · rw [h.2.2.1]
    decide
